import Mathlib

/-!
Verification of the OpenRCT2 `OrcaStream` chunked container
(`src/openrct2/core/OrcaStream.hpp`).

The development shallowly embeds the container core: the in-memory byte
buffer, the bidirectional chunk-stream primitives (`ReadWrite`, strings,
`BeginArray` / `NextArrayElement` / `EndArray`, `ReadWriteVector`,
`ReadWriteArray`), the chunk directory dispatch (`ReadWriteChunk`,
`SeekChunk`), the READING-mode constructor and the WRITING-mode
finalization (destructor).  Bytes are `Nat` values (< 256 where it
matters), machine integers are `Nat` with explicit `% 2^32` / `% 2^64`
where the code truncates, and fallible operations return `Except`.

User codecs are embedded deeply: a `Value` records the data a writing
codec pushes through the primitives, a `Shape` records the sequence of
primitive calls a reading codec performs, and the interpreters
`runWrite` / `runRead` replay them against the chunk stream exactly as
the C++ template machinery would.
-/

namespace OrcaSpec

/-- Mode of an `OrcaStream` / `ChunkStream` (`OrcaStream::Mode`). -/
inductive Mode where
  | READING
  | WRITING
deriving DecidableEq, Repr

/-- Error kinds the embedded operations can surface.  `MalformedArray` is the
`std::runtime_error` thrown by `EndArray`; `UnexpectedEndOfStream` is the
buffer's read-past-end failure; `Truncated` is a short read from the
underlying stream; `InflateError` a failed decompression.  `BadMagic`,
`VersionTooNew` and `IntegrityError` are listed in the specification's error
catalogue; they appear here so that statements about their absence can be
expressed. -/
inductive OrcaErr where
  | UnexpectedEndOfStream
  | MalformedArray
  | Truncated
  | InflateError
  | EmptyArrayStack
  | BadMagic
  | VersionTooNew
  | IntegrityError
deriving DecidableEq, Repr

/-- Modelled from the spec: the growable in-memory byte buffer with a position
cursor (`MemoryStream`, spec section 4.1; its source is not under `src/`).
`data` is the byte content, `pos` the cursor. -/
structure MemoryStream where
  data : List Nat
  pos : Nat
deriving DecidableEq, Repr

/-- Modelled from the spec: `MemoryStream::Write` — overwrite-at-cursor with
grow-as-needed semantics; the cursor advances past the written bytes. -/
def MemoryStream.write (ms : MemoryStream) (bs : List Nat) : MemoryStream :=
  ⟨ms.data.take ms.pos ++ bs ++ ms.data.drop (ms.pos + bs.length), ms.pos + bs.length⟩

/-- Modelled from the spec: `MemoryStream::Read` — reads `n` bytes at the
cursor; reading past the end fails with `UnexpectedEndOfStream`. -/
def MemoryStream.read (ms : MemoryStream) (n : Nat) :
    Except OrcaErr (List Nat × MemoryStream) :=
  if ms.pos + n ≤ ms.data.length then
    .ok ((ms.data.drop ms.pos).take n, ⟨ms.data, ms.pos + n⟩)
  else
    .error .UnexpectedEndOfStream

/-- Modelled from the spec: `MemoryStream::SetPosition`. -/
def MemoryStream.setPosition (ms : MemoryStream) (p : Nat) : MemoryStream :=
  ⟨ms.data, p⟩

/-- Little-endian byte image of a 32-bit value (`uint32_t` as stored by
`ReadWrite(&v, 4)`); the `% 256` per byte realizes the `static_cast<uint32_t>`
truncation. -/
def u32le (n : Nat) : List Nat :=
  [n % 256, n / 256 % 256, n / 2 ^ 16 % 256, n / 2 ^ 24 % 256]

/-- Decoding of 4 little-endian bytes into a `Nat`. -/
def u32dec (bs : List Nat) : Nat :=
  match bs with
  | [b0, b1, b2, b3] => b0 + 256 * (b1 + 256 * (b2 + 256 * b3))
  | _ => 0

/-- Little-endian byte image of a 64-bit value. -/
def u64le (n : Nat) : List Nat :=
  [n % 256, n / 256 % 256, n / 2 ^ 16 % 256, n / 2 ^ 24 % 256,
   n / 2 ^ 32 % 256, n / 2 ^ 40 % 256, n / 2 ^ 48 % 256, n / 2 ^ 56 % 256]

/-- Decoding of 8 little-endian bytes into a `Nat`. -/
def u64dec (bs : List Nat) : Nat :=
  match bs with
  | [b0, b1, b2, b3, b4, b5, b6, b7] =>
      b0 + 256 * (b1 + 256 * (b2 + 256 * (b3 + 256 * (b4 + 256 * (b5 + 256 * (b6 + 256 * b7))))))
  | _ => 0

/-- Array framing state (`ChunkStream::ArrayState`): `startPos` is the frame
header position (writer only), `lastPos` the cursor just past the most recent
element, `count` and `elementSize` the running frame fields. -/
structure ArrayState where
  startPos : Nat
  lastPos : Nat
  count : Nat
  elementSize : Nat
deriving DecidableEq, Repr

/-- State of a `ChunkStream`: the (shared) buffer plus the stack of
in-progress array frames (`_arrayStack`, top at the head). -/
structure ChunkState where
  buffer : MemoryStream
  arrayStack : List ArrayState
deriving DecidableEq, Repr

/-- ChunkStream `ReadBuffer` — read `len` bytes at the cursor. -/
def readBuffer (n : Nat) (st : ChunkState) :
    Except OrcaErr (List Nat × ChunkState) := do
  let (bs, ms) ← st.buffer.read n
  pure (bs, ⟨ms, st.arrayStack⟩)

/-- ChunkStream `WriteBuffer` — write the bytes at the cursor. -/
def writeBuffer (bs : List Nat) (st : ChunkState) : ChunkState :=
  ⟨st.buffer.write bs, st.arrayStack⟩

/-- ChunkStream `Read<uint32_t>`. -/
def readU32 (st : ChunkState) : Except OrcaErr (Nat × ChunkState) := do
  let (bs, st) ← readBuffer 4 st
  pure (u32dec bs, st)

/-- ChunkStream `Write<uint32_t>` in WRITING mode (a plain 4-byte
`ReadWrite`). -/
def writeU32 (v : Nat) (st : ChunkState) : ChunkState :=
  writeBuffer (u32le v) st

/-- Scan a byte list for the first NUL: returns the bytes before it and the
total number of bytes consumed including the NUL, or `none` when the list is
exhausted first.  This is the loop inside `ChunkStream::ReadString`. -/
def scanNul : List Nat → Option (List Nat × Nat)
  | [] => none
  | b :: rest =>
      if b = 0 then some ([], 1)
      else
        match scanNul rest with
        | none => none
        | some (p, n) => some (b :: p, n + 1)

/-- ChunkStream `ReadString`: read bytes until a NUL byte; the NUL is consumed
but not returned.  Running out of buffer raises `UnexpectedEndOfStream` (the
failing `ReadBuffer` of the loop). -/
def readString (st : ChunkState) : Except OrcaErr (List Nat × ChunkState) :=
  match scanNul (st.buffer.data.drop st.buffer.pos) with
  | some (s, n) =>
      .ok (s, ⟨⟨st.buffer.data, st.buffer.pos + n⟩, st.arrayStack⟩)
  | none => .error .UnexpectedEndOfStream

/-- Index of the first NUL byte (`std::string_view::find` of the NUL
character), or `none` when there is none (`npos`). -/
def findNul : List Nat → Option Nat
  | [] => none
  | b :: tl => if b = 0 then some 0 else (findNul tl).map (fun i => i + 1)

/-- ChunkStream `WriteString`: emit the bytes of `s` up to (excluding) the
first NUL — all of `s` when it has none — then a single NUL terminator. -/
def writeString (s : List Nat) (st : ChunkState) : ChunkState :=
  let len := match findNul s with
             | some i => i
             | none => s.length
  writeBuffer [0] (writeBuffer (s.take len) st)

/-- ChunkStream `BeginArray`: READING reads the `Count` / `ElementSize`
header and pushes a frame; WRITING pushes a frame remembering `StartPos`,
emits an 8-byte placeholder header and returns 0. -/
def beginArray (mode : Mode) (st : ChunkState) :
    Except OrcaErr (Nat × ChunkState) :=
  match mode with
  | .READING => do
      let (count, st) ← readU32 st
      let (elSize, st) ← readU32 st
      let a : ArrayState :=
        ⟨0, st.buffer.pos, count, elSize⟩
      pure (count, ⟨st.buffer, a :: st.arrayStack⟩)
  | .WRITING =>
      let startPos := st.buffer.pos
      let st := writeU32 0 (writeU32 0 st)
      let a : ArrayState := ⟨startPos, st.buffer.pos, 0, 0⟩
      .ok (0, ⟨st.buffer, a :: st.arrayStack⟩)

/-- ChunkStream `NextArrayElement`.  READING: when elements remain and the
frame is fixed-stride, seek to `lastPos + elementSize`; decrement the count.
WRITING: fold the size of the bytes written since `lastPos` into the running
`elementSize` (first element fixes it, a differing later element resets it to
0), bump the count, remember the cursor. -/
def nextArrayElement (mode : Mode) (st : ChunkState) :
    Except OrcaErr (Bool × ChunkState) :=
  match st.arrayStack with
  | [] => .error .EmptyArrayStack
  | a :: rest =>
    match mode with
    | .READING =>
        if a.count = 0 then
          .ok (false, st)
        else
          let (a, buf) :=
            if a.elementSize ≠ 0 then
              (⟨a.startPos, a.lastPos + a.elementSize, a.count, a.elementSize⟩,
               st.buffer.setPosition (a.lastPos + a.elementSize))
            else (a, st.buffer)
          let a' : ArrayState := ⟨a.startPos, a.lastPos, a.count - 1, a.elementSize⟩
          .ok (a'.count = 0, ⟨buf, a' :: rest⟩)
    | .WRITING =>
        let lastElSize := st.buffer.pos - a.lastPos
        let elementSize :=
          if a.count = 0 then lastElSize
          else if a.elementSize ≠ lastElSize then 0
          else a.elementSize
        let a' : ArrayState := ⟨a.startPos, st.buffer.pos, a.count + 1, elementSize⟩
        .ok (true, ⟨st.buffer, a' :: rest⟩)

/-- ChunkStream `EndArray`.  READING pops the frame.  WRITING: when bytes were
written into the frame (`cursor ≠ startPos + 8`) yet no element was counted,
throw `MalformedArray`; otherwise back-patch `Count` and `ElementSize` at
`startPos`, restore the cursor, and pop. -/
def endArray (mode : Mode) (st : ChunkState) : Except OrcaErr ChunkState :=
  match st.arrayStack with
  | [] => .error .EmptyArrayStack
  | a :: rest =>
    match mode with
    | .READING => .ok ⟨st.buffer, rest⟩
    | .WRITING =>
        let backupPos := st.buffer.pos
        if backupPos ≠ a.startPos + 8 ∧ a.count = 0 then
          .error .MalformedArray
        else
          let st := ⟨st.buffer.setPosition a.startPos, rest⟩
          let st := writeU32 a.elementSize (writeU32 a.count st)
          .ok ⟨st.buffer.setPosition backupPos, st.arrayStack⟩

mutual

/-- Deep embedding of the data a WRITING-mode user codec pushes through the
chunk-stream primitives: raw scalar bytes (`ReadWrite(addr, len)`), a string
(`ReadWrite(std::string)`), sequencing, the empty codec, a
`ReadWriteVector` with its element values, and a `ReadWriteArray` over a
fixed array of `cap` slots. -/
inductive Value where
  | scalar (bs : List Nat) : Value
  | str (s : List Nat) : Value
  | skip : Value
  | seq (a b : Value) : Value
  | vec (es : Elems) : Value
  | arr (cap : Nat) (es : Elems) : Value
deriving DecidableEq, Repr

/-- Element list of an embedded vector or fixed array. -/
inductive Elems where
  | nil : Elems
  | cons (hd : Value) (tl : Elems) : Elems
deriving DecidableEq, Repr

end

/-- Shape of a codec: the sequence of primitive calls a READING-mode run of
the same user codec performs (scalar widths, strings, vectors with one
element shape, fixed arrays with capacity). -/
inductive Shape where
  | scalar (k : Nat) : Shape
  | str : Shape
  | skip : Shape
  | seq (a b : Shape) : Shape
  | vec (elem : Shape) : Shape
  | arr (cap : Nat) (elem : Shape) : Shape
deriving DecidableEq, Repr

/-- Number of elements of an embedded element list. -/
def elemsCount : Elems → Nat
  | .nil => 0
  | .cons _ tl => elemsCount tl + 1

/-- Final `ElementSize` the writer's stride auto-detection produces from the
list of per-element byte sizes: the common size when all elements are equal,
and 0 otherwise (also 0 for an empty frame). -/
def stride (ss : List Nat) : Nat :=
  match ss with
  | [] => 0
  | s :: tl => if tl.all (fun x => x == s) then s else 0

mutual

/-- Bytes the WRITING-mode interpreter emits for a value, computed directly:
scalars are their raw bytes, strings their NUL-truncated bytes plus one NUL,
array frames are the back-patched `Count` / `ElementSize` header followed by
the element bodies. -/
def encode : Value → List Nat
  | .scalar bs => bs
  | .str s => s.takeWhile (fun c => c ≠ 0) ++ [0]
  | .skip => []
  | .seq a b => encode a ++ encode b
  | .vec es => u32le (elemsCount es) ++ u32le (stride (sizeList es)) ++ encodeElems es
  | .arr _ es => u32le (elemsCount es) ++ u32le (stride (sizeList es)) ++ encodeElems es

/-- Concatenated bodies of the elements of an array frame. -/
def encodeElems : Elems → List Nat
  | .nil => []
  | .cons v tl => encode v ++ encodeElems tl

/-- Per-element byte sizes of the element bodies of a frame. -/
def sizeList : Elems → List Nat
  | .nil => []
  | .cons v tl => (encode v).length :: sizeList tl

end

/-- Back-patched `ElementSize` of a frame holding the given elements. -/
def strideOf (es : Elems) : Nat :=
  stride (sizeList es)

/-- Check that every element of the list encodes to exactly `k` bytes. -/
def sizesAll (es : Elems) (k : Nat) : Bool :=
  match es with
  | .nil => true
  | .cons v tl => (encode v).length == k && sizesAll tl k

mutual

/-- WRITING-mode interpreter: replays the embedded codec against the chunk
stream, calling the primitives exactly as the C++ user codec would
(`ReadWrite` for scalars, `WriteString`, and
`BeginArray` / element writes / `NextArrayElement` / `EndArray` for
`ReadWriteVector` / `ReadWriteArray`). -/
def runWrite : Value → ChunkState → Except OrcaErr ChunkState
  | .scalar bs, st => .ok (writeBuffer bs st)
  | .str s, st => .ok (writeString s st)
  | .skip, st => .ok st
  | .seq a b, st => do
      let st ← runWrite a st
      runWrite b st
  | .vec es, st => do
      let (_, st) ← beginArray .WRITING st
      let st ← runWriteElems es st
      endArray .WRITING st
  | .arr _ es, st => do
      let (_, st) ← beginArray .WRITING st
      let st ← runWriteElems es st
      endArray .WRITING st

/-- Element loop of the WRITING-mode array primitives: write each element,
then `NextArrayElement`. -/
def runWriteElems : Elems → ChunkState → Except OrcaErr ChunkState
  | .nil, st => .ok st
  | .cons v tl, st => do
      let st ← runWrite v st
      let (_, st) ← nextArrayElement .WRITING st
      runWriteElems tl st

end

/-- Repeat a value `n` times as an element list. -/
def replicateElems (v : Value) : Nat → Elems
  | 0 => .nil
  | n + 1 => .cons v (replicateElems v n)

/-- Append two element lists. -/
def elemsAppend : Elems → Elems → Elems
  | .nil, ys => ys
  | .cons x xs, ys => .cons x (elemsAppend xs ys)

/-- Value a default-initialized (`el = {}`) slot of the given shape holds:
zero bytes for scalars, the empty string, the empty vector, a fixed array of
default slots. -/
def defaultValue : Shape → Value
  | .scalar k => .scalar (List.replicate k 0)
  | .str => .str []
  | .skip => .skip
  | .seq a b => .seq (defaultValue a) (defaultValue b)
  | .vec _ => .vec .nil
  | .arr cap sh => .arr cap (replicateElems (defaultValue sh) cap)

/-- READING-mode loop of `ReadWriteVector`: run the element codec `f`, then
`NextArrayElement`, `n` times. -/
def readLoop (f : ChunkState → Except OrcaErr (Value × ChunkState)) :
    Nat → ChunkState → Except OrcaErr (Elems × ChunkState)
  | 0, st => .ok (.nil, st)
  | n + 1, st => do
      let (v, st) ← f st
      let (_, st) ← nextArrayElement .READING st
      let (es, st) ← readLoop f n st
      pure (.cons v es, st)

/-- READING-mode loop of `ReadWriteArray`: iteration `i` of the stored count
runs the element codec only when `i < cap` (excess elements get only the
`NextArrayElement` call); the second `Nat` argument is the number of
iterations left. -/
def readArrLoop (f : ChunkState → Except OrcaErr (Value × ChunkState))
    (cap : Nat) : Nat → Nat → ChunkState → Except OrcaErr (Elems × ChunkState)
  | _, 0, st => .ok (.nil, st)
  | i, n + 1, st =>
      if i < cap then do
        let (v, st) ← f st
        let (_, st) ← nextArrayElement .READING st
        let (es, st) ← readArrLoop f cap (i + 1) n st
        pure (.cons v es, st)
      else do
        let (_, st) ← nextArrayElement .READING st
        let (es, st) ← readArrLoop f cap (i + 1) n st
        pure (es, st)

/-- READING-mode interpreter: replays the codec of the given shape against
the chunk stream, producing the value it reads.  The `vec` case is
`ReadWriteVector` (read the count, run the element codec that many times),
the `arr` case is `ReadWriteArray` (default-initialize all `cap` slots, read
`min count cap` of them, excess iterations run only `NextArrayElement`). -/
def runRead : Shape → ChunkState → Except OrcaErr (Value × ChunkState)
  | .scalar k, st => do
      let (bs, st) ← readBuffer k st
      pure (.scalar bs, st)
  | .str, st => do
      let (s, st) ← readString st
      pure (.str s, st)
  | .skip, st => .ok (.skip, st)
  | .seq a b, st => do
      let (va, st) ← runRead a st
      let (vb, st) ← runRead b st
      pure (.seq va vb, st)
  | .vec sh, st => do
      let (count, st) ← beginArray .READING st
      let (es, st) ← readLoop (runRead sh) count st
      let st ← endArray .READING st
      pure (.vec es, st)
  | .arr cap sh, st => do
      let (count, st) ← beginArray .READING st
      let (es, st) ← readArrLoop (runRead sh) cap 0 count st
      let st ← endArray .READING st
      pure (.arr cap (elemsAppend es (replicateElems (defaultValue sh) (cap - min count cap))), st)

/-- Check that every element body of a frame is shorter than `2 ^ 32` bytes
(so the back-patched `ElementSize` is not truncated). -/
def sizesFit : Elems → Bool
  | .nil => true
  | .cons v tl => (encode v).length < 2 ^ 32 && sizesFit tl

mutual

/-- Well-formedness of a value against a shape: scalar byte lists have the
declared width and byte range, strings are NUL-free byte lists, vector and
array elements are well-formed against the element shape, fixed arrays carry
exactly `cap` elements, and counts and element sizes fit in the `u32` frame
header fields. -/
def wfValue : Shape → Value → Bool
  | .scalar k, .scalar bs => bs.length == k && bs.all (fun b => b < 256)
  | .str, .str s => s.all (fun b => b ≠ 0 && b < 256)
  | .skip, .skip => true
  | .seq a b, .seq va vb => wfValue a va && wfValue b vb
  | .vec sh, .vec es =>
      wfElems sh es && elemsCount es < 2 ^ 32 && sizesFit es
  | .arr cap sh, .arr cap' es =>
      cap == cap' && elemsCount es == cap && wfElems sh es &&
        elemsCount es < 2 ^ 32 && sizesFit es
  | _, _ => false

/-- Well-formedness of every element of a list against the element shape. -/
def wfElems : Shape → Elems → Bool
  | _, .nil => true
  | sh, .cons v tl => wfValue sh v && wfElems sh tl

end

/-- Compression identifier `COMPRESSION_NONE`. -/
def COMPRESSION_NONE : Nat := 0

/-- Compression identifier `COMPRESSION_GZIP`. -/
def COMPRESSION_GZIP : Nat := 1

/-- Container header (`OrcaStream::Header`, 64 packed little-endian bytes).
Field values are `Nat`; the 20 `sha1` bytes are kept as a list. -/
structure Header where
  magic : Nat
  targetVersion : Nat
  minVersion : Nat
  numChunks : Nat
  uncompressedSize : Nat
  compression : Nat
  compressedSize : Nat
  sha1 : List Nat
deriving DecidableEq, Repr

/-- Chunk directory entry (`OrcaStream::ChunkEntry`, 20 packed bytes). -/
structure ChunkEntry where
  entryId : Nat
  offset : Nat
  length : Nat
deriving DecidableEq, Repr

/-- State of an `OrcaStream`: parsed/accumulated header, chunk directory and
the (uncompressed) payload buffer. -/
structure OrcaState where
  header : Header
  chunks : List ChunkEntry
  buffer : MemoryStream
deriving DecidableEq, Repr

/-- Byte image of the header as `WriteValue<Header>` emits it: all integers
little-endian, the digest padded or truncated to its 20 bytes, 8 zero
padding bytes. -/
def encodeHeader (h : Header) : List Nat :=
  u32le h.magic ++ u32le h.targetVersion ++ u32le h.minVersion ++
    u32le h.numChunks ++ u64le h.uncompressedSize ++ u32le h.compression ++
    u64le h.compressedSize ++
    (h.sha1.take 20 ++ List.replicate (20 - h.sha1.length) 0) ++
    List.replicate 8 0

/-- Parse of the 64-byte header (`ReadValue<Header>`), returning the header
and the remaining input, or `none` when fewer than 64 bytes remain. -/
def parseHeader (input : List Nat) : Option (Header × List Nat) :=
  if 64 ≤ input.length then
    some
      (⟨u32dec (input.take 4),
        u32dec ((input.drop 4).take 4),
        u32dec ((input.drop 8).take 4),
        u32dec ((input.drop 12).take 4),
        u64dec ((input.drop 16).take 8),
        u32dec ((input.drop 24).take 4),
        u64dec ((input.drop 28).take 8),
        (input.drop 36).take 20⟩,
       input.drop 64)
  else none

/-- Byte image of a directory entry as `WriteValue<ChunkEntry>` emits it. -/
def encodeEntry (e : ChunkEntry) : List Nat :=
  u32le e.entryId ++ u64le e.offset ++ u64le e.length

/-- Parse of `n` 20-byte directory entries (`ReadValue<ChunkEntry>` loop),
returning the entries and the remaining input. -/
def parseEntries : Nat → List Nat → Option (List ChunkEntry × List Nat)
  | 0, input => some ([], input)
  | n + 1, input =>
      if 20 ≤ input.length then
        match parseEntries n (input.drop 20) with
        | some (es, rest) =>
            some
              (⟨u32dec (input.take 4),
                u64dec ((input.drop 4).take 8),
                u64dec ((input.drop 12).take 8)⟩ :: es,
             rest)
        | none => none
      else none

/-- Block-reading loop of the READING constructor: a do/while that reads
`min bytesLeft 2048` bytes per iteration until `bytesLeft` is exhausted;
a short read from the underlying stream fails with `Truncated`. -/
def readBlocks (bytesLeft : Nat) (input : List Nat) :
    Except OrcaErr (List Nat × List Nat) :=
  let readLen := min bytesLeft 2048
  if input.length < readLen then .error .Truncated
  else if _h : bytesLeft ≤ 2048 then .ok (input.take readLen, input.drop readLen)
  else do
    let (bs, rest) ← readBlocks (bytesLeft - 2048) (input.drop 2048)
    .ok (input.take 2048 ++ bs, rest)
termination_by bytesLeft
decreasing_by omega

/-- READING-mode construction (`OrcaStream::OrcaStream` with
`Mode::READING`): parse the header, read `NumChunks` directory entries, read
`CompressedSize` payload bytes in blocks, and when `Compression == 1`
inflate the payload (the inflated size is not compared against
`UncompressedSize`; the header is stored without any validation of `Magic`,
`MinVersion` or `Sha1`).  `inflate` is the external decompression codec. -/
def orcaConstructRead (inflate : List Nat → Option (List Nat))
    (input : List Nat) : Except OrcaErr OrcaState :=
  match parseHeader input with
  | none => Except.error OrcaErr.Truncated
  | some (h, rest) =>
    match parseEntries h.numChunks rest with
    | none => Except.error OrcaErr.Truncated
    | some (entries, rest2) =>
      match readBlocks h.compressedSize rest2 with
      | Except.error e => Except.error e
      | Except.ok (payload, _) =>
        if h.compression = COMPRESSION_GZIP then
          match inflate payload with
          | none => Except.error OrcaErr.InflateError
          | some u => Except.ok ⟨h, entries, ⟨u, u.length⟩⟩
        else
          Except.ok ⟨h, entries, ⟨payload, payload.length⟩⟩

/-- WRITING-mode construction: default header with `Compression = 1`, empty
directory, empty buffer. -/
def orcaOpenWrite : OrcaState :=
  ⟨⟨0, 0, 0, 0, 0, COMPRESSION_GZIP, 0, List.replicate 20 0⟩, [], ⟨[], 0⟩⟩

/-- WRITING-mode finalization (`OrcaStream::~OrcaStream`): fill in
`NumChunks`, `UncompressedSize`, `CompressedSize` and `Sha1`; when
`Compression == 1` attempt to deflate — on failure fall back to
`Compression = 0` and keep the raw bytes, on success store the deflated
length; then emit header, directory and payload.  Returns the final header
together with the emitted byte stream.  `deflate` and `sha1F` are the
external compression codec and hash primitive. -/
def orcaFinalize (deflate : List Nat → Option (List Nat))
    (sha1F : List Nat → List Nat) (st : OrcaState) : Header × List Nat :=
  let ud := st.buffer.data
  let h : Header :=
    { st.header with
        numChunks := st.chunks.length
        uncompressedSize := ud.length
        compressedSize := ud.length
        sha1 := sha1F ud }
  let hp : Header × List Nat :=
    if h.compression = COMPRESSION_GZIP then
      match deflate ud with
      | some cb => ({ h with compressedSize := cb.length }, cb)
      | none => ({ h with compression := COMPRESSION_NONE }, ud)
    else (h, ud)
  (hp.1, encodeHeader hp.1 ++ (st.chunks.map encodeEntry).flatten ++ hp.2)

/-- OrcaStream `SeekChunk`: find the first directory entry with the
requested id and seek the buffer to its offset. -/
def seekChunk (chunkId : Nat) (st : OrcaState) : Option OrcaState :=
  match st.chunks.find? (fun e => e.entryId == chunkId) with
  | some e => some ⟨st.header, st.chunks, st.buffer.setPosition e.offset⟩
  | none => none

/-- READING branch of `OrcaStream::ReadWriteChunk`: when `SeekChunk` finds no
entry, return `false` without running the codec; otherwise run the codec (a
fresh `ChunkStream` over the buffer) from the entry's offset and return
`true` with the value it read. -/
def readWriteChunkR (chunkId : Nat) (sh : Shape) (st : OrcaState) :
    Except OrcaErr (Bool × Option Value × OrcaState) :=
  match seekChunk chunkId st with
  | none => .ok (false, none, st)
  | some st1 => do
      let (v, cs) ← runRead sh ⟨st1.buffer, []⟩
      pure (true, some v, ⟨st1.header, st1.chunks, cs.buffer⟩)

/-- WRITING branch of `OrcaStream::ReadWriteChunk`: remember the buffer
position as the chunk's `Offset`, run the codec over a fresh `ChunkStream`,
record `Length` as the distance the cursor moved, append the entry to the
directory and return `true`. -/
def readWriteChunkW (chunkId : Nat) (v : Value) (st : OrcaState) :
    Except OrcaErr (Bool × OrcaState) := do
  let offset := st.buffer.pos
  let cs ← runWrite v ⟨st.buffer, []⟩
  let entry : ChunkEntry := ⟨chunkId, offset, cs.buffer.pos - offset⟩
  pure (true, ⟨st.header, st.chunks ++ [entry], cs.buffer⟩)

/-! ## Helper lemmas about the buffer and the byte codecs -/

theorem MemoryStream.write_at_end (d bs : List Nat) :
    MemoryStream.write ⟨d, d.length⟩ bs = ⟨d ++ bs, d.length + bs.length⟩ := by
  simp [MemoryStream.write, List.drop_eq_nil_of_le]

theorem MemoryStream.write_replace (pre old suf bs : List Nat)
    (h : bs.length = old.length) :
    MemoryStream.write ⟨pre ++ old ++ suf, pre.length⟩ bs =
      ⟨pre ++ bs ++ suf, pre.length + bs.length⟩ := by
  have h1 : (pre ++ old ++ suf).take pre.length = pre := by
    rw [List.append_assoc]; exact List.take_left pre (old ++ suf)
  have h2 : (pre ++ old ++ suf).drop (pre.length + bs.length) = suf := by
    have : pre.length + bs.length = (pre ++ old).length := by
      simp [List.length_append, h]
    rw [this]; exact List.drop_left (pre ++ old) suf
  simp only [MemoryStream.write]
  rw [h1, h2]

theorem MemoryStream.read_at (pre x post : List Nat) :
    MemoryStream.read ⟨pre ++ x ++ post, pre.length⟩ x.length =
      .ok (x, ⟨pre ++ x ++ post, pre.length + x.length⟩) := by
  have hle : pre.length + x.length ≤ (pre ++ x ++ post).length := by
    simp [List.length_append]
  have hdrop : (pre ++ x ++ post).drop pre.length = x ++ post := by
    rw [List.append_assoc]; exact List.drop_left pre (x ++ post)
  simp [MemoryStream.read, hle, hdrop, List.take_left]

theorem readBuffer_at (pre x post : List Nat) (S : List ArrayState) :
    readBuffer x.length ⟨⟨pre ++ x ++ post, pre.length⟩, S⟩ =
      .ok (x, ⟨⟨pre ++ x ++ post, pre.length + x.length⟩, S⟩) := by
  simp only [readBuffer, MemoryStream.read_at, Functor.map, Except.map, bind,
    Except.bind, pure, Except.pure]

theorem writeBuffer_at_end (d bs : List Nat) (S : List ArrayState) :
    writeBuffer bs ⟨⟨d, d.length⟩, S⟩ = ⟨⟨d ++ bs, d.length + bs.length⟩, S⟩ := by
  simp [writeBuffer, MemoryStream.write_at_end]

theorem u32le_length (n : Nat) : (u32le n).length = 4 := by
  simp [u32le]

theorem u64le_length (n : Nat) : (u64le n).length = 8 := by
  simp [u64le]

theorem u32dec_u32le (n : Nat) : u32dec (u32le n) = n % 2 ^ 32 := by
  simp [u32dec, u32le]
  omega

theorem u64dec_u64le (n : Nat) : u64dec (u64le n) = n % 2 ^ 64 := by
  simp [u64dec, u64le]
  omega

theorem u32le_mod (n : Nat) : u32le (n % 2 ^ 32) = u32le n := by
  simp [u32le]
  omega

theorem readU32_at (pre post : List Nat) (n : Nat) (S : List ArrayState) :
    readU32 ⟨⟨pre ++ u32le n ++ post, pre.length⟩, S⟩ =
      .ok (n % 2 ^ 32, ⟨⟨pre ++ u32le n ++ post, pre.length + 4⟩, S⟩) := by
  have h := readBuffer_at pre (u32le n) post S
  rw [u32le_length] at h
  simp only [readU32, h, bind, Except.bind, u32dec_u32le, pure, Except.pure]

theorem scanNul_append (s rest : List Nat) (h : ∀ b ∈ s, b ≠ 0) :
    scanNul (s ++ 0 :: rest) = some (s, s.length + 1) := by
  induction s with
  | nil => simp [scanNul]
  | cons b tl ih =>
      have hb : b ≠ 0 := h b (by simp)
      have htl : ∀ x ∈ tl, x ≠ 0 := fun x hx => h x (by simp [hx])
      simp [scanNul, hb, ih htl]

theorem takeWhile_nulfree (s : List Nat) (h : ∀ b ∈ s, b ≠ 0) :
    s.takeWhile (fun c => c ≠ 0) = s := by
  induction s with
  | nil => simp
  | cons b tl ih =>
      have hb : b ≠ 0 := h b (by simp)
      have htl : ∀ x ∈ tl, x ≠ 0 := fun x hx => h x (by simp [hx])
      simp only [List.takeWhile_cons, decide_eq_true_eq]
      rw [if_pos hb, ih htl]

theorem takeWhile_nulfree_mem (s : List Nat) :
    ∀ b ∈ s.takeWhile (fun c => c ≠ 0), b ≠ 0 := by
  intro b hb
  have := List.mem_takeWhile_imp hb
  simpa using this

theorem take_findNul_eq_takeWhile (s : List Nat) :
    s.take (match findNul s with
            | some i => i
            | none => s.length) = s.takeWhile (fun c => c ≠ 0) := by
  induction s with
  | nil => simp [findNul]
  | cons b tl ih =>
      by_cases hb : b = 0
      · subst hb; simp [findNul]
      · simp only [findNul, if_neg hb]
        cases hfi : findNul tl with
        | none =>
            rw [hfi] at ih
            simp only [hfi, Option.map_none', List.length_cons, List.take_succ_cons,
              List.takeWhile_cons, decide_eq_true_eq]
            rw [if_pos hb, ← ih]
        | some i =>
            rw [hfi] at ih
            simp only [hfi, Option.map_some', List.take_succ_cons,
              List.takeWhile_cons, decide_eq_true_eq]
            rw [if_pos hb, ← ih]

/-- WriteString writes the NUL-free prefix of `s` followed by one NUL:
the two buffer writes concatenate to the takeWhile prefix plus a NUL. -/
theorem writeString_at_end (s d : List Nat) (S : List ArrayState) :
    writeString s ⟨⟨d, d.length⟩, S⟩ =
      ⟨⟨d ++ (s.takeWhile (fun c => c ≠ 0) ++ [0]),
        d.length + ((s.takeWhile (fun c => c ≠ 0)).length + 1)⟩, S⟩ := by
  simp only [writeString, take_findNul_eq_takeWhile]
  rw [writeBuffer_at_end]
  have h2 := writeBuffer_at_end (d ++ s.takeWhile (fun c => c ≠ 0)) [0] S
  rw [List.length_append] at h2
  rw [h2, List.append_assoc]
  simp
  omega

/-! ## Right-associated variants of the buffer lemmas (simp normal form) -/

theorem MemoryStream.write_replace' (pre old suf bs : List Nat)
    (h : bs.length = old.length) :
    MemoryStream.write ⟨pre ++ (old ++ suf), pre.length⟩ bs =
      ⟨pre ++ (bs ++ suf), pre.length + bs.length⟩ := by
  have := MemoryStream.write_replace pre old suf bs h
  rwa [List.append_assoc, List.append_assoc] at this

theorem readU32_at' (pre post : List Nat) (n : Nat) (S : List ArrayState) :
    readU32 ⟨⟨pre ++ (u32le n ++ post), pre.length⟩, S⟩ =
      .ok (n % 2 ^ 32, ⟨⟨pre ++ (u32le n ++ post), pre.length + 4⟩, S⟩) := by
  have := readU32_at pre post n S
  rwa [List.append_assoc] at this

theorem readBuffer_at' (pre x post : List Nat) (S : List ArrayState) :
    readBuffer x.length ⟨⟨pre ++ (x ++ post), pre.length⟩, S⟩ =
      .ok (x, ⟨⟨pre ++ (x ++ post), pre.length + x.length⟩, S⟩) := by
  have := readBuffer_at pre x post S
  rwa [List.append_assoc] at this

/-! ## Writer-side characterization: `runWrite` appends `encode` -/

/-- Pure evolution of the writer's array frame across the element loop: the
`NextArrayElement` WRITING update folded over the element sizes. -/
def frameAfter (a : ArrayState) : Elems → ArrayState
  | .nil => a
  | .cons v tl =>
      frameAfter
        ⟨a.startPos, a.lastPos + (encode v).length, a.count + 1,
          if a.count = 0 then (encode v).length
          else if a.elementSize ≠ (encode v).length then 0
          else a.elementSize⟩ tl

theorem frameAfter_startPos : ∀ (es : Elems) (a : ArrayState),
    (frameAfter a es).startPos = a.startPos
  | .nil, _ => rfl
  | .cons v tl, a => by
      simp [frameAfter, frameAfter_startPos tl]

theorem frameAfter_count : ∀ (es : Elems) (a : ArrayState),
    (frameAfter a es).count = a.count + elemsCount es
  | .nil, _ => by simp [frameAfter, elemsCount]
  | .cons v tl, a => by
      simp [frameAfter, elemsCount, frameAfter_count tl]
      omega

theorem frameAfter_lastPos : ∀ (es : Elems) (a : ArrayState),
    (frameAfter a es).lastPos = a.lastPos + (encodeElems es).length
  | .nil, _ => by simp [frameAfter, encodeElems]
  | .cons v tl, a => by
      simp [frameAfter, encodeElems, frameAfter_lastPos tl]
      omega

theorem sizesAll_eq_all : ∀ (es : Elems) (k : Nat),
    sizesAll es k = (sizeList es).all (fun x => x == k)
  | .nil, _ => rfl
  | .cons v tl, k => by simp [sizesAll, sizeList, sizesAll_eq_all tl]

theorem frameAfter_elementSize_pos : ∀ (es : Elems) (a : ArrayState),
    a.count ≠ 0 →
      (frameAfter a es).elementSize =
        if sizesAll es a.elementSize then a.elementSize else 0
  | .nil, a, _ => by simp [frameAfter, sizesAll]
  | .cons v tl, a, h => by
      by_cases hs : a.elementSize = (encode v).length
      · have h1 := frameAfter_elementSize_pos tl
          ⟨a.startPos, a.lastPos + (encode v).length, a.count + 1, a.elementSize⟩
          (by simp)
        simp only [frameAfter, if_neg h]
        rw [if_neg (by omega : ¬a.elementSize ≠ (encode v).length)]
        simp only [h1]
        simp [sizesAll, hs]
      · have h1 := frameAfter_elementSize_pos tl
          ⟨a.startPos, a.lastPos + (encode v).length, a.count + 1, 0⟩
          (by simp)
        simp only [frameAfter, if_neg h, if_pos hs]
        simp only [h1]
        have hfalse : sizesAll (.cons v tl) a.elementSize = false := by
          simp [sizesAll]
          intro heq
          omega
        simp [hfalse]

theorem frameAfter_elementSize (es : Elems) (sp lp : Nat) :
    (frameAfter ⟨sp, lp, 0, 0⟩ es).elementSize = strideOf es := by
  cases es with
  | nil => simp [frameAfter, strideOf, sizeList, stride]
  | cons v tl =>
      have h := frameAfter_elementSize_pos tl
        ⟨sp, lp + (encode v).length, 0 + 1, (encode v).length⟩ (by simp)
      simp only [frameAfter, reduceCtorEq, reduceIte, if_pos rfl] at h ⊢
      simp only [h, strideOf, sizeList, stride, sizesAll_eq_all]

theorem elemsCount_eq_zero (es : Elems) : elemsCount es = 0 ↔ es = .nil := by
  cases es <;> simp [elemsCount]

/-- WRITING-mode `BeginArray` at the end of the buffer: appends the 8-byte
placeholder header and pushes the fresh frame. -/
theorem beginArrayW (d : List Nat) (S : List ArrayState) :
    beginArray .WRITING ⟨⟨d, d.length⟩, S⟩ =
      .ok (0, ⟨⟨d ++ (u32le 0 ++ u32le 0), d.length + 8⟩,
        ⟨d.length, d.length + 8, 0, 0⟩ :: S⟩) := by
  simp only [beginArray, writeU32]
  rw [writeBuffer_at_end]
  have h2 := writeBuffer_at_end (d ++ u32le 0) (u32le 0) S
  rw [List.length_append, u32le_length] at h2
  rw [u32le_length, h2, List.append_assoc]

/-- WRITING-mode `EndArray` over a frame written at the end of the buffer:
no `MalformedArray` when elements were counted (or nothing was written), and
the placeholder header is back-patched with the frame's `Count` and
`ElementSize` while the cursor is restored. -/
theorem endArrayW_ok (d body : List Nat) (x y : Nat) (f : ArrayState)
    (S : List ArrayState)
    (hsp : f.startPos = d.length)
    (hcnt : f.count = 0 → body = []) :
    endArray .WRITING
        ⟨⟨d ++ (u32le x ++ (u32le y ++ body)), d.length + (8 + body.length)⟩, f :: S⟩ =
      .ok ⟨⟨d ++ (u32le f.count ++ (u32le f.elementSize ++ body)),
        d.length + (8 + body.length)⟩, S⟩ := by
  have hnothrow : ¬(d.length + (8 + body.length) ≠ f.startPos + 8 ∧ f.count = 0) := by
    rintro ⟨hne, hz⟩
    have := hcnt hz
    subst this
    simp [hsp] at hne
  simp only [endArray, if_neg hnothrow, writeU32, MemoryStream.setPosition]
  have h1 : MemoryStream.write ⟨d ++ (u32le x ++ (u32le y ++ body)), d.length⟩
      (u32le f.count) =
      ⟨d ++ (u32le f.count ++ (u32le y ++ body)), d.length + 4⟩ := by
    have := MemoryStream.write_replace' d (u32le x) (u32le y ++ body) (u32le f.count)
      (by simp [u32le_length])
    rwa [u32le_length] at this
  have h2 : MemoryStream.write
      ⟨(d ++ u32le f.count) ++ (u32le y ++ body), (d ++ u32le f.count).length⟩
      (u32le f.elementSize) =
      ⟨(d ++ u32le f.count) ++ (u32le f.elementSize ++ body),
        (d ++ u32le f.count).length + 4⟩ := by
    have := MemoryStream.write_replace' (d ++ u32le f.count) (u32le y) body
      (u32le f.elementSize) (by simp [u32le_length])
    rwa [u32le_length] at this
  rw [List.append_assoc] at h2
  rw [List.length_append, u32le_length] at h2
  rw [hsp]
  simp only [writeBuffer, h1, h2, List.append_assoc]

mutual

/-- Writer characterization: running a codec in WRITING mode from the end of
the buffer appends exactly `encode v`, leaves the cursor at the new end, and
leaves the array stack unchanged.  In particular the writer never fails. -/
theorem runWrite_ok (v : Value) : ∀ (d : List Nat) (S : List ArrayState),
    runWrite v ⟨⟨d, d.length⟩, S⟩ =
      .ok ⟨⟨d ++ encode v, d.length + (encode v).length⟩, S⟩ := by
  cases v with
  | scalar bs =>
      intro d S
      simp [runWrite, encode, writeBuffer_at_end]
  | str s =>
      intro d S
      simp [runWrite, encode, writeString_at_end]
  | skip =>
      intro d S
      simp [runWrite, encode]
  | seq a b =>
      intro d S
      have ha := runWrite_ok a d S
      have hb := runWrite_ok b (d ++ encode a) S
      rw [List.length_append] at hb
      simp only [runWrite, ha, bind, Except.bind, hb, encode, List.append_assoc,
        List.length_append]
      simp [Nat.add_assoc]
  | vec es =>
      intro d S
      have h := runWrite_okArray es d S
      have h2 : encode (Value.vec es) =
          u32le (elemsCount es) ++ (u32le (strideOf es) ++ encodeElems es) := by
        simp [encode, strideOf, List.append_assoc]
      simp only [runWrite]
      rw [h2, h]
      simp only [Except.ok.injEq, ChunkState.mk.injEq, MemoryStream.mk.injEq,
        List.length_append, u32le_length, and_true, true_and]
      omega
  | arr cap es =>
      intro d S
      have h := runWrite_okArray es d S
      have h2 : encode (Value.arr cap es) =
          u32le (elemsCount es) ++ (u32le (strideOf es) ++ encodeElems es) := by
        simp [encode, strideOf, List.append_assoc]
      simp only [runWrite]
      rw [h2, h]
      simp only [Except.ok.injEq, ChunkState.mk.injEq, MemoryStream.mk.injEq,
        List.length_append, u32le_length, and_true, true_and]
      omega

/-- Shared body of the `vec` and `arr` writer cases: `BeginArray`, the
element loop, `EndArray`. -/
theorem runWrite_okArray (es : Elems) (d : List Nat) (S : List ArrayState) :
    (do
      let (_, st) ← beginArray .WRITING (⟨⟨d, d.length⟩, S⟩ : ChunkState)
      let st ← runWriteElems es st
      endArray .WRITING st) =
      Except.ok (⟨⟨d ++ (u32le (elemsCount es) ++ (u32le (strideOf es) ++ encodeElems es)),
        d.length + (8 + (encodeElems es).length)⟩, S⟩ : ChunkState) := by
  have hb := beginArrayW d S
  have hlen : (d ++ (u32le 0 ++ u32le 0)).length = d.length + 8 := by
    simp [u32le_length]
  have he := runWriteElems_ok es (d ++ (u32le 0 ++ u32le 0))
    ⟨d.length, d.length + 8, 0, 0⟩ S (by rw [hlen])
  rw [hlen] at he
  have hcnt : (frameAfter ⟨d.length, d.length + 8, 0, 0⟩ es).count = 0 →
      encodeElems es = [] := by
    intro hz
    rw [frameAfter_count] at hz
    simp at hz
    rw [(elemsCount_eq_zero es).mp hz]
    rfl
  have hend := endArrayW_ok d (encodeElems es) 0 0
    (frameAfter ⟨d.length, d.length + 8, 0, 0⟩ es) S
    (by rw [frameAfter_startPos]) hcnt
  rw [frameAfter_count, frameAfter_elementSize] at hend
  simp only [Nat.zero_add] at hend
  simp only [bind, Except.bind, hb, he]
  rw [List.append_assoc, List.append_assoc,
    show d.length + 8 + (encodeElems es).length = d.length + (8 + (encodeElems es).length) from by
      omega]
  exact hend

/-- Element-loop characterization for the writer: with the top frame's
`lastPos` at the cursor (which sits at the end of the buffer), the loop
appends the element bodies and evolves the top frame by `frameAfter`. -/
theorem runWriteElems_ok (es : Elems) : ∀ (d : List Nat) (a : ArrayState)
    (S : List ArrayState), a.lastPos = d.length →
    runWriteElems es ⟨⟨d, d.length⟩, a :: S⟩ =
      .ok ⟨⟨d ++ encodeElems es, d.length + (encodeElems es).length⟩,
        frameAfter a es :: S⟩ := by
  cases es with
  | nil =>
      intro d a S h
      simp [runWriteElems, encodeElems, frameAfter]
  | cons v tl =>
      intro d a S h
      have hv := runWrite_ok v d (a :: S)
      have hnext : nextArrayElement .WRITING
          ⟨⟨d ++ encode v, d.length + (encode v).length⟩, a :: S⟩ =
          .ok (true, ⟨⟨d ++ encode v, d.length + (encode v).length⟩,
            ⟨a.startPos, d.length + (encode v).length, a.count + 1,
              if a.count = 0 then (encode v).length
              else if a.elementSize ≠ (encode v).length then 0
              else a.elementSize⟩ :: S⟩) := by
        simp only [nextArrayElement, h]
        rw [show d.length + (encode v).length - d.length = (encode v).length from by omega]
      have htl := runWriteElems_ok tl (d ++ encode v)
        ⟨a.startPos, d.length + (encode v).length, a.count + 1,
          if a.count = 0 then (encode v).length
          else if a.elementSize ≠ (encode v).length then 0
          else a.elementSize⟩ S (by rw [List.length_append])
      rw [List.length_append] at htl
      simp only [runWriteElems, hv, bind, Except.bind, hnext, htl, encodeElems,
        frameAfter, List.append_assoc, List.length_append]
      simp [Nat.add_assoc, h]

end

/-! ## Reader-side characterization: `runRead` inverts `encode` -/

/-- Reader specification for a codec body `f` at a value `v`: run anywhere in
a buffer whose bytes at the cursor are `encode v`, `f` returns `v` and moves
the cursor exactly past those bytes, leaving the data, the trailing bytes
and the array stack untouched. -/
def ReaderSpec (f : ChunkState → Except OrcaErr (Value × ChunkState))
    (v : Value) : Prop :=
  ∀ (pre post : List Nat) (S : List ArrayState),
    f ⟨⟨pre ++ (encode v ++ post), pre.length⟩, S⟩ =
      .ok (v, ⟨⟨pre ++ (encode v ++ post), pre.length + (encode v).length⟩, S⟩)

/-- Membership in an element list. -/
def elemMem (v : Value) : Elems → Prop
  | .nil => False
  | .cons hd tl => v = hd ∨ elemMem v tl

theorem elemsAppend_nil : ∀ es : Elems, elemsAppend es .nil = es
  | .nil => rfl
  | .cons v tl => by simp [elemsAppend, elemsAppend_nil tl]

theorem wfElems_mem : ∀ (sh : Shape) (es : Elems) (v : Value),
    wfElems sh es = true → elemMem v es → wfValue sh v = true
  | sh, .cons hd tl, v, hwf, hm => by
      simp only [wfElems, Bool.and_eq_true] at hwf
      cases hm with
      | inl h => rw [h]; exact hwf.1
      | inr h => exact wfElems_mem sh tl v hwf.2 h

theorem sizesAll_head (v : Value) (tl : Elems) (k : Nat)
    (h : sizesAll (.cons v tl) k = true) : (encode v).length = k := by
  simp only [sizesAll, Bool.and_eq_true, beq_iff_eq] at h
  exact h.1

theorem sizesAll_tail (v : Value) (tl : Elems) (k : Nat)
    (h : sizesAll (.cons v tl) k = true) : sizesAll tl k = true := by
  simp only [sizesAll, Bool.and_eq_true] at h
  exact h.2

theorem strideOf_zero_or_sizesAll (es : Elems) :
    strideOf es = 0 ∨ sizesAll es (strideOf es) = true := by
  cases es with
  | nil => exact Or.inl rfl
  | cons v tl =>
      by_cases h : sizesAll tl (encode v).length = true
      · right
        have hs : strideOf (.cons v tl) = (encode v).length := by
          simp only [strideOf, sizeList, stride, ← sizesAll_eq_all, h]
          simp
        rw [hs]
        simp [sizesAll, h]
      · left
        simp only [strideOf, sizeList, stride, ← sizesAll_eq_all]
        simp only [Bool.not_eq_true] at h
        simp [h]

theorem strideOf_lt_of_sizesFit (es : Elems) (h : sizesFit es = true) :
    strideOf es < 2 ^ 32 := by
  cases es with
  | nil => simp [strideOf, sizeList, stride]
  | cons v tl =>
      simp only [sizesFit, Bool.and_eq_true, decide_eq_true_eq] at h
      simp only [strideOf, sizeList, stride]
      by_cases hall : (sizeList tl).all (fun x => x == (encode v).length) = true
      · simp only [hall, if_pos]
        omega
      · simp only [Bool.not_eq_true] at hall
        simp [hall]

theorem encodeElems_cons (v : Value) (tl : Elems) :
    encodeElems (.cons v tl) = encode v ++ encodeElems tl := by
  rfl

/-- READING-mode `NextArrayElement` over a frame with elements remaining:
fixed-stride frames seek to `lastPos + elementSize`, variable-stride frames
leave the cursor alone; the count is decremented. -/
theorem nextArrayElementR_fixed (buf : MemoryStream) (a : ArrayState)
    (S : List ArrayState) (hc : a.count ≠ 0) (hes : a.elementSize ≠ 0) :
    nextArrayElement .READING ⟨buf, a :: S⟩ =
      .ok (a.count - 1 = 0,
        ⟨⟨buf.data, a.lastPos + a.elementSize⟩,
          ⟨a.startPos, a.lastPos + a.elementSize, a.count - 1, a.elementSize⟩ :: S⟩) := by
  simp [nextArrayElement, hc, hes, MemoryStream.setPosition]

theorem nextArrayElementR_var (buf : MemoryStream) (a : ArrayState)
    (S : List ArrayState) (hc : a.count ≠ 0) (hes : a.elementSize = 0) :
    nextArrayElement .READING ⟨buf, a :: S⟩ =
      .ok (a.count - 1 = 0,
        ⟨buf, ⟨a.startPos, a.lastPos, a.count - 1, 0⟩ :: S⟩) := by
  simp [nextArrayElement, hc, hes]

/-- Element loop of `ReadWriteVector` in READING mode: when the bytes at the
cursor are the concatenated element bodies, the frame has at least
`elemsCount es` elements left and its stride is either variable or matches
every element's size, the loop returns exactly the elements and consumes
exactly their bytes. -/
theorem readLoop_ok (f : ChunkState → Except OrcaErr (Value × ChunkState)) :
    ∀ (es : Elems) (pre post : List Nat) (S : List ArrayState)
      (a : ArrayState) (r : Nat),
      (∀ v, elemMem v es → ReaderSpec f v) →
      a.count = elemsCount es + r →
      (a.elementSize = 0 ∨ sizesAll es a.elementSize = true) →
      (a.elementSize ≠ 0 → a.lastPos = pre.length) →
      ∃ a' : ArrayState,
        readLoop f (elemsCount es)
            ⟨⟨pre ++ (encodeElems es ++ post), pre.length⟩, a :: S⟩ =
          .ok (es, ⟨⟨pre ++ (encodeElems es ++ post),
            pre.length + (encodeElems es).length⟩, a' :: S⟩)
  | .nil, pre, post, S, a, r, _, _, _, _ => by
      refine ⟨a, ?_⟩
      simp [readLoop, elemsCount, encodeElems]
  | .cons v tl, pre, post, S, a, r, hf, hcount, hstride, hlast => by
      have hv : ReaderSpec f v := hf v (Or.inl rfl)
      have hdata : pre ++ (encodeElems (.cons v tl) ++ post) =
          pre ++ (encode v ++ (encodeElems tl ++ post)) := by
        rw [encodeElems_cons, List.append_assoc]
      have hcne : a.count ≠ 0 := by
        rw [hcount, show elemsCount (Elems.cons v tl) = elemsCount tl + 1 from rfl]
        omega
      have hstep := hv pre (encodeElems tl ++ post) (a :: S)
      by_cases hes : a.elementSize = 0
      · -- variable-stride frame: the cursor stays where the codec left it
        have hnext := nextArrayElementR_var
          ⟨pre ++ (encode v ++ (encodeElems tl ++ post)),
            pre.length + (encode v).length⟩ a S hcne hes
        have hrec := readLoop_ok f tl (pre ++ encode v) post S
          ⟨a.startPos, a.lastPos, a.count - 1, 0⟩ r
          (fun w hw => hf w (Or.inr hw))
          (by simp only [hcount, elemsCount]; omega)
          (Or.inl rfl)
          (by intro h; exact absurd rfl h)
        obtain ⟨a', ha'⟩ := hrec
        refine ⟨a', ?_⟩
        rw [hdata]
        have hcnt1 : elemsCount (Elems.cons v tl) = elemsCount tl + 1 := rfl
        rw [hcnt1]
        simp only [readLoop, bind, Except.bind, hstep, hnext, hes]
        rw [show (pre ++ encode v) ++ (encodeElems tl ++ post) =
            pre ++ (encode v ++ (encodeElems tl ++ post)) from List.append_assoc .. ] at ha'
        rw [show ((pre ++ encode v).length) = pre.length + (encode v).length from by
          simp] at ha'
        simp only [ha', encodeElems_cons, List.length_append, Nat.add_assoc, pure,
          Except.pure]
      · -- fixed-stride frame: the seek lands exactly past the element
        have hsz : (encode v).length = a.elementSize :=
          sizesAll_head v tl a.elementSize (hstride.resolve_left hes)
        have hnext := nextArrayElementR_fixed
          ⟨pre ++ (encode v ++ (encodeElems tl ++ post)),
            pre.length + (encode v).length⟩ a S hcne hes
        have hl : a.lastPos = pre.length := hlast hes
        have hrec := readLoop_ok f tl (pre ++ encode v) post S
          ⟨a.startPos, a.lastPos + a.elementSize, a.count - 1, a.elementSize⟩ r
          (fun w hw => hf w (Or.inr hw))
          (by simp only [hcount, elemsCount]; omega)
          (Or.inr (sizesAll_tail v tl a.elementSize (hstride.resolve_left hes)))
          (by intro _; simp [hl, ← hsz])
        obtain ⟨a', ha'⟩ := hrec
        refine ⟨a', ?_⟩
        rw [hdata]
        have hcnt1 : elemsCount (Elems.cons v tl) = elemsCount tl + 1 := rfl
        rw [hcnt1]
        simp only [readLoop, bind, Except.bind, hstep, hnext]
        rw [show (pre ++ encode v) ++ (encodeElems tl ++ post) =
            pre ++ (encode v ++ (encodeElems tl ++ post)) from List.append_assoc .. ] at ha'
        rw [show ((pre ++ encode v).length) = pre.length + (encode v).length from by
          simp] at ha'
        rw [show a.lastPos + a.elementSize = pre.length + (encode v).length from by
          omega] at ha' ⊢
        simp only [ha', encodeElems_cons, List.length_append, Nat.add_assoc, pure,
          Except.pure]

/-- Excess iterations of the `ReadWriteArray` READING loop (`i ≥ cap`): the
element codec is never invoked; each iteration only runs `NextArrayElement`,
so the cursor advances by `elementSize` per iteration when the frame is
fixed-stride and not at all when it is variable-stride, and nothing is
stored. -/
theorem readArrLoop_excess (f : ChunkState → Except OrcaErr (Value × ChunkState)) :
    ∀ (m cap i : Nat) (buf : MemoryStream) (S : List ArrayState) (a : ArrayState),
      cap ≤ i →
      m ≤ a.count →
      (a.elementSize ≠ 0 → buf.pos = a.lastPos) →
      ∃ a' : ArrayState,
        readArrLoop f cap i m ⟨buf, a :: S⟩ =
          .ok (.nil, ⟨⟨buf.data, buf.pos + m * a.elementSize⟩, a' :: S⟩)
  | 0, cap, i, buf, S, a, _, _, _ => by
      refine ⟨a, ?_⟩
      simp [readArrLoop]
  | m + 1, cap, i, buf, S, a, hi, hm, hsync => by
      have hcne : a.count ≠ 0 := by omega
      have hnotlt : ¬i < cap := by omega
      by_cases hes : a.elementSize = 0
      · have hnext := nextArrayElementR_var buf a S hcne hes
        have hrec := readArrLoop_excess f m cap (i + 1) buf S
          ⟨a.startPos, a.lastPos, a.count - 1, 0⟩ (by omega)
          (by show m ≤ a.count - 1; omega)
          (by intro h; exact absurd rfl h)
        obtain ⟨a', ha'⟩ := hrec
        refine ⟨a', ?_⟩
        simp only [readArrLoop, if_neg hnotlt, bind, Except.bind, hnext, ha', hes]
        rfl
      · have hnext := nextArrayElementR_fixed buf a S hcne hes
        have hsync1 : buf.pos = a.lastPos := hsync hes
        have hrec := readArrLoop_excess f m cap (i + 1) ⟨buf.data, a.lastPos + a.elementSize⟩ S
          ⟨a.startPos, a.lastPos + a.elementSize, a.count - 1, a.elementSize⟩
          (by omega) (by show m ≤ a.count - 1; omega) (by intro _; rfl)
        obtain ⟨a', ha'⟩ := hrec
        refine ⟨a', ?_⟩
        simp only [readArrLoop, if_neg hnotlt, bind, Except.bind, hnext, ha', pure,
          Except.pure]
        simp only [Except.ok.injEq, Prod.mk.injEq, ChunkState.mk.injEq,
          MemoryStream.mk.injEq, true_and, and_true]
        rw [hsync1, Nat.succ_mul]
        omega

/-- Full `ReadWriteArray` READING loop: starting at slot `i` with the
elements `es` exactly filling the remaining capacity and `m` excess
iterations recorded in the frame count, the loop reads and returns exactly
`es`, then consumes the excess per the frame's stride. -/
theorem readArrLoop_ok (f : ChunkState → Except OrcaErr (Value × ChunkState)) :
    ∀ (es : Elems) (m cap i : Nat) (pre post : List Nat) (S : List ArrayState)
      (a : ArrayState),
      (∀ v, elemMem v es → ReaderSpec f v) →
      i + elemsCount es = cap →
      a.count = elemsCount es + m →
      (a.elementSize = 0 ∨ sizesAll es a.elementSize = true) →
      (a.elementSize ≠ 0 → a.lastPos = pre.length) →
      ∃ a' : ArrayState,
        readArrLoop f cap i (elemsCount es + m)
            ⟨⟨pre ++ (encodeElems es ++ post), pre.length⟩, a :: S⟩ =
          .ok (es, ⟨⟨pre ++ (encodeElems es ++ post),
            pre.length + (encodeElems es).length + m * a.elementSize⟩, a' :: S⟩)
  | .nil, m, cap, i, pre, post, S, a, _, hcap, hcount, _, hlast => by
      have hexc := readArrLoop_excess f m cap i
        ⟨pre ++ (encodeElems .nil ++ post), pre.length⟩ S a
        (by simp only [elemsCount] at hcap; omega)
        (by simp only [elemsCount] at hcount; omega)
        (fun h => (hlast h).symm)
      obtain ⟨a', ha'⟩ := hexc
      refine ⟨a', ?_⟩
      rw [show elemsCount Elems.nil + m = m from by simp [elemsCount]]
      rw [ha']
      simp [encodeElems]
  | .cons v tl, m, cap, i, pre, post, S, a, hf, hcap, hcount, hstride, hlast => by
      have hv : ReaderSpec f v := hf v (Or.inl rfl)
      have hdata : pre ++ (encodeElems (.cons v tl) ++ post) =
          pre ++ (encode v ++ (encodeElems tl ++ post)) := by
        rw [encodeElems_cons, List.append_assoc]
      have hcne : a.count ≠ 0 := by
        rw [hcount, show elemsCount (Elems.cons v tl) = elemsCount tl + 1 from rfl]
        omega
      have hilt : i < cap := by
        rw [show elemsCount (Elems.cons v tl) = elemsCount tl + 1 from rfl] at hcap
        omega
      have hstep := hv pre (encodeElems tl ++ post) (a :: S)
      have hcnt1 : elemsCount (Elems.cons v tl) = elemsCount tl + 1 := rfl
      by_cases hes : a.elementSize = 0
      · have hnext := nextArrayElementR_var
          ⟨pre ++ (encode v ++ (encodeElems tl ++ post)),
            pre.length + (encode v).length⟩ a S hcne hes
        have hrec := readArrLoop_ok f tl m cap (i + 1) (pre ++ encode v) post S
          ⟨a.startPos, a.lastPos, a.count - 1, 0⟩
          (fun w hw => hf w (Or.inr hw))
          (by rw [hcnt1] at hcap; omega)
          (by simp only [hcount, hcnt1]; omega)
          (Or.inl rfl)
          (by intro h; exact absurd rfl h)
        obtain ⟨a', ha'⟩ := hrec
        refine ⟨a', ?_⟩
        rw [hdata, hcnt1]
        rw [show elemsCount tl + 1 + m = (elemsCount tl + m) + 1 from by omega]
        simp only [readArrLoop, if_pos hilt, bind, Except.bind, hstep, hnext, hes]
        rw [show (pre ++ encode v) ++ (encodeElems tl ++ post) =
            pre ++ (encode v ++ (encodeElems tl ++ post)) from List.append_assoc .. ] at ha'
        rw [show ((pre ++ encode v).length) = pre.length + (encode v).length from by
          simp] at ha'
        simp only [ha', encodeElems_cons, List.length_append, Nat.add_assoc, pure,
          Except.pure]
      · have hsz : (encode v).length = a.elementSize :=
          sizesAll_head v tl a.elementSize (hstride.resolve_left hes)
        have hnext := nextArrayElementR_fixed
          ⟨pre ++ (encode v ++ (encodeElems tl ++ post)),
            pre.length + (encode v).length⟩ a S hcne hes
        have hl : a.lastPos = pre.length := hlast hes
        have hrec := readArrLoop_ok f tl m cap (i + 1) (pre ++ encode v) post S
          ⟨a.startPos, a.lastPos + a.elementSize, a.count - 1, a.elementSize⟩
          (fun w hw => hf w (Or.inr hw))
          (by rw [hcnt1] at hcap; omega)
          (by simp only [hcount, hcnt1]; omega)
          (Or.inr (sizesAll_tail v tl a.elementSize (hstride.resolve_left hes)))
          (by intro _; simp [hl, ← hsz])
        obtain ⟨a', ha'⟩ := hrec
        refine ⟨a', ?_⟩
        rw [hdata, hcnt1]
        rw [show elemsCount tl + 1 + m = (elemsCount tl + m) + 1 from by omega]
        simp only [readArrLoop, if_pos hilt, bind, Except.bind, hstep, hnext]
        rw [show (pre ++ encode v) ++ (encodeElems tl ++ post) =
            pre ++ (encode v ++ (encodeElems tl ++ post)) from List.append_assoc .. ] at ha'
        rw [show ((pre ++ encode v).length) = pre.length + (encode v).length from by
          simp] at ha'
        rw [show a.lastPos + a.elementSize = pre.length + (encode v).length from by
          omega] at ha' ⊢
        simp only [ha', encodeElems_cons, List.length_append, Nat.add_assoc, pure,
          Except.pure]

/-- READING-mode `BeginArray`: reads the two header words and pushes the
frame (the reader applies the `u32` truncation to both). -/
theorem beginArrayR (pre post : List Nat) (n s : Nat) (S : List ArrayState) :
    beginArray .READING ⟨⟨pre ++ (u32le n ++ (u32le s ++ post)), pre.length⟩, S⟩ =
      .ok (n % 2 ^ 32, ⟨⟨pre ++ (u32le n ++ (u32le s ++ post)), pre.length + 8⟩,
        ⟨0, pre.length + 8, n % 2 ^ 32, s % 2 ^ 32⟩ :: S⟩) := by
  have h1 := readU32_at' pre (u32le s ++ post) n S
  have h2 := readU32_at' (pre ++ u32le n) post s S
  rw [List.append_assoc, List.length_append, u32le_length] at h2
  simp only [beginArray, bind, Except.bind, h1, h2, pure, Except.pure]

/-- READING-mode `EndArray` just pops the frame. -/
theorem endArrayR (buf : MemoryStream) (a : ArrayState) (S : List ArrayState) :
    endArray .READING ⟨buf, a :: S⟩ = .ok ⟨buf, S⟩ := by
  simp [endArray]

theorem encode_vec (es : Elems) :
    encode (.vec es) =
      u32le (elemsCount es) ++ (u32le (strideOf es) ++ encodeElems es) := by
  simp [encode, strideOf, List.append_assoc]

theorem encode_arr (cap : Nat) (es : Elems) :
    encode (.arr cap es) =
      u32le (elemsCount es) ++ (u32le (strideOf es) ++ encodeElems es) := by
  simp [encode, strideOf, List.append_assoc]

theorem encode_str_nulfree (s : List Nat) (h : ∀ b ∈ s, b ≠ 0) :
    encode (.str s) = s ++ [0] := by
  rw [show encode (.str s) = s.takeWhile (fun c => c ≠ 0) ++ [0] from rfl,
    takeWhile_nulfree s h]

/-- Reader correctness: a READING-mode run of a codec of shape `sh` over the
bytes `encode v` of any well-formed `v` of that shape returns exactly `v`
and consumes exactly those bytes. -/
theorem runRead_ok : ∀ (sh : Shape) (v : Value),
    wfValue sh v = true → ReaderSpec (runRead sh) v := by
  intro sh
  induction sh with
  | scalar k =>
      intro v hwf pre post S
      cases v with
      | scalar bs =>
          have hlen : bs.length = k := by
            simp only [wfValue, Bool.and_eq_true, beq_iff_eq] at hwf
            exact hwf.1
          have h := readBuffer_at' pre bs post S
          rw [← hlen]
          simp only [runRead, encode, h, bind, Except.bind, pure, Except.pure]
      | str s => simp [wfValue] at hwf
      | skip => simp [wfValue] at hwf
      | seq a b => simp [wfValue] at hwf
      | vec es => simp [wfValue] at hwf
      | arr c es => simp [wfValue] at hwf
  | str =>
      intro v hwf pre post S
      cases v with
      | scalar bs => simp [wfValue] at hwf
      | str s =>
          have hnul : ∀ b ∈ s, b ≠ 0 := by
            intro b hb
            simp only [wfValue, List.all_eq_true] at hwf
            have := hwf b hb
            simp at this
            exact this.1
          have henc := encode_str_nulfree s hnul
          have hdrop : (pre ++ (encode (.str s) ++ post)).drop pre.length =
              encode (.str s) ++ post := List.drop_left _ _
          have hscan : scanNul ((encode (Value.str s) ++ post)) =
              some (s, s.length + 1) := by
            rw [henc, List.append_assoc]
            simp only [List.singleton_append]
            exact scanNul_append s post hnul
          simp only [runRead, readString, hdrop, hscan, bind, Except.bind, pure,
            Except.pure]
          rw [show (encode (Value.str s)).length = s.length + 1 from by
            rw [henc]; simp]
      | skip => simp [wfValue] at hwf
      | seq a b => simp [wfValue] at hwf
      | vec es => simp [wfValue] at hwf
      | arr c es => simp [wfValue] at hwf
  | skip =>
      intro v hwf pre post S
      cases v with
      | skip => simp [runRead, encode]
      | scalar bs => simp [wfValue] at hwf
      | str s => simp [wfValue] at hwf
      | seq a b => simp [wfValue] at hwf
      | vec es => simp [wfValue] at hwf
      | arr c es => simp [wfValue] at hwf
  | seq a b iha ihb =>
      intro v hwf pre post S
      cases v with
      | seq va vb =>
          simp only [wfValue, Bool.and_eq_true] at hwf
          have ha := iha va hwf.1 pre (encode vb ++ post) S
          have hb := ihb vb hwf.2 (pre ++ encode va) post S
          rw [show (pre ++ encode va) ++ (encode vb ++ post) =
              pre ++ (encode va ++ (encode vb ++ post)) from List.append_assoc ..] at hb
          rw [show ((pre ++ encode va).length) = pre.length + (encode va).length from by
            simp] at hb
          have hdata : pre ++ (encode (.seq va vb) ++ post) =
              pre ++ (encode va ++ (encode vb ++ post)) := by
            simp only [encode, List.append_assoc]
          rw [hdata]
          simp only [runRead, bind, Except.bind, ha, hb, pure, Except.pure, encode,
            List.length_append, Nat.add_assoc]
      | scalar bs => simp [wfValue] at hwf
      | str s => simp [wfValue] at hwf
      | skip => simp [wfValue] at hwf
      | vec es => simp [wfValue] at hwf
      | arr c es => simp [wfValue] at hwf
  | vec sh ih =>
      intro v hwf pre post S
      cases v with
      | vec es =>
          simp only [wfValue, Bool.and_eq_true, decide_eq_true_eq] at hwf
          obtain ⟨⟨hwfe, hcnt⟩, hfit⟩ := hwf
          have hdata : pre ++ (encode (.vec es) ++ post) =
              pre ++ (u32le (elemsCount es) ++ (u32le (strideOf es) ++
                (encodeElems es ++ post))) := by
            rw [encode_vec, List.append_assoc, List.append_assoc]
          have hbeg := beginArrayR pre (encodeElems es ++ post)
            (elemsCount es) (strideOf es) S
          rw [Nat.mod_eq_of_lt hcnt,
            Nat.mod_eq_of_lt (strideOf_lt_of_sizesFit es hfit)] at hbeg
          have hloop := readLoop_ok (runRead sh) es
            (pre ++ (u32le (elemsCount es) ++ u32le (strideOf es))) post S
            ⟨0, pre.length + 8, elemsCount es, strideOf es⟩ 0
            (fun w hw => ih w (wfElems_mem sh es w hwfe hw))
            (by simp)
            (by
              rcases strideOf_zero_or_sizesAll es with h | h
              · exact Or.inl h
              · exact Or.inr h)
            (by intro _; simp [u32le_length])
          obtain ⟨a', ha'⟩ := hloop
          rw [show (pre ++ (u32le (elemsCount es) ++ u32le (strideOf es))) ++
              (encodeElems es ++ post) =
              pre ++ (u32le (elemsCount es) ++ (u32le (strideOf es) ++
                (encodeElems es ++ post))) from by
            simp [List.append_assoc]] at ha'
          rw [show (pre ++ (u32le (elemsCount es) ++ u32le (strideOf es))).length =
              pre.length + 8 from by simp [u32le_length]] at ha'
          rw [hdata]
          simp only [runRead, bind, Except.bind, hbeg, ha', endArrayR, pure,
            Except.pure]
          rw [show (encode (Value.vec es)).length = 8 + (encodeElems es).length from by
            rw [encode_vec]; simp only [List.length_append, u32le_length]; omega]
          rw [show pre.length + 8 + (encodeElems es).length =
            pre.length + (8 + (encodeElems es).length) from by omega]
      | scalar bs => simp [wfValue] at hwf
      | str s => simp [wfValue] at hwf
      | skip => simp [wfValue] at hwf
      | seq a b => simp [wfValue] at hwf
      | arr c es => simp [wfValue] at hwf
  | arr cap sh ih =>
      intro v hwf pre post S
      cases v with
      | arr cap' es =>
          simp only [wfValue, Bool.and_eq_true, decide_eq_true_eq, beq_iff_eq] at hwf
          obtain ⟨⟨⟨⟨hcap', hcnt'⟩, hwfe⟩, hcnt⟩, hfit⟩ := hwf
          have hdata : pre ++ (encode (.arr cap' es) ++ post) =
              pre ++ (u32le (elemsCount es) ++ (u32le (strideOf es) ++
                (encodeElems es ++ post))) := by
            rw [encode_arr, List.append_assoc, List.append_assoc]
          have hbeg := beginArrayR pre (encodeElems es ++ post)
            (elemsCount es) (strideOf es) S
          rw [Nat.mod_eq_of_lt hcnt,
            Nat.mod_eq_of_lt (strideOf_lt_of_sizesFit es hfit)] at hbeg
          have hloop := readArrLoop_ok (runRead sh) es 0 cap 0
            (pre ++ (u32le (elemsCount es) ++ u32le (strideOf es))) post S
            ⟨0, pre.length + 8, elemsCount es, strideOf es⟩
            (fun w hw => ih w (wfElems_mem sh es w hwfe hw))
            (by omega)
            (by simp)
            (by
              rcases strideOf_zero_or_sizesAll es with h | h
              · exact Or.inl h
              · exact Or.inr h)
            (by intro _; simp [u32le_length])
          obtain ⟨a', ha'⟩ := hloop
          rw [show (pre ++ (u32le (elemsCount es) ++ u32le (strideOf es))) ++
              (encodeElems es ++ post) =
              pre ++ (u32le (elemsCount es) ++ (u32le (strideOf es) ++
                (encodeElems es ++ post))) from by
            simp [List.append_assoc]] at ha'
          rw [show (pre ++ (u32le (elemsCount es) ++ u32le (strideOf es))).length =
              pre.length + 8 from by simp [u32le_length]] at ha'
          rw [show elemsCount es + 0 = elemsCount es from rfl] at ha'
          rw [hdata]
          simp only [runRead, bind, Except.bind, hbeg, ha', endArrayR, pure,
            Except.pure]
          rw [show cap - min (elemsCount es) cap = 0 from by omega]
          rw [show elemsAppend es (replicateElems (defaultValue sh) 0) = es from
            elemsAppend_nil es]
          rw [← hcap']
          rw [show (encode (Value.arr cap es)).length = 8 + (encodeElems es).length from by
            rw [encode_arr]; simp only [List.length_append, u32le_length]; omega]
          rw [show pre.length + 8 + (encodeElems es).length + 0 * strideOf es =
            pre.length + (8 + (encodeElems es).length) from by omega]
      | scalar bs => simp [wfValue] at hwf
      | str s => simp [wfValue] at hwf
      | skip => simp [wfValue] at hwf
      | seq a b => simp [wfValue] at hwf
      | vec es => simp [wfValue] at hwf

/-! ## Envelope lemmas: header and directory serialization, block reads -/

/-- Well-formedness of a header: every integer field fits its stored width
and the digest is exactly 20 bytes. -/
def headerWf (h : Header) : Bool :=
  h.magic < 2 ^ 32 && h.targetVersion < 2 ^ 32 && h.minVersion < 2 ^ 32 &&
    h.numChunks < 2 ^ 32 && h.uncompressedSize < 2 ^ 64 &&
    h.compression < 2 ^ 32 && h.compressedSize < 2 ^ 64 && h.sha1.length == 20

/-- Well-formedness of a directory entry: fields fit their stored widths. -/
def entryWf (e : ChunkEntry) : Bool :=
  e.entryId < 2 ^ 32 && e.offset < 2 ^ 64 && e.length < 2 ^ 64

theorem take_prefix_append (x y : List Nat) (n : Nat) (h : x.length = n) :
    (x ++ y).take n = x := by
  rw [← h]; exact List.take_left x y

theorem drop_prefix_append (x y : List Nat) (n : Nat) (h : x.length = n) :
    (x ++ y).drop n = y := by
  rw [← h]; exact List.drop_left x y

theorem encodeHeader_length (h : Header) : (encodeHeader h).length = 64 := by
  simp [encodeHeader, u32le_length, u64le_length]
  omega

theorem encodeEntry_length (e : ChunkEntry) : (encodeEntry e).length = 20 := by
  simp [encodeEntry, u32le_length, u64le_length]

/-- Parsing the emitted header bytes recovers the header verbatim and leaves
the remaining input untouched. -/
theorem parseHeader_encode (h : Header) (rest : List Nat)
    (hwf : headerWf h = true) :
    parseHeader (encodeHeader h ++ rest) = some (h, rest) := by
  simp only [headerWf, Bool.and_eq_true, decide_eq_true_eq, beq_iff_eq] at hwf
  obtain ⟨⟨⟨⟨⟨⟨⟨hm, htv⟩, hmv⟩, hnc⟩, hus⟩, hcp⟩, hcs⟩, hsha⟩ := hwf
  have hshapad : h.sha1.take 20 ++ List.replicate (20 - h.sha1.length) 0 = h.sha1 := by
    have h1 : h.sha1.take 20 = h.sha1 := List.take_of_length_le (by omega)
    rw [h1, hsha]
    simp
  have hinput : encodeHeader h ++ rest =
      u32le h.magic ++ (u32le h.targetVersion ++ (u32le h.minVersion ++
        (u32le h.numChunks ++ (u64le h.uncompressedSize ++ (u32le h.compression ++
          (u64le h.compressedSize ++ (h.sha1 ++ (List.replicate 8 0 ++ rest)))))))) := by
    simp only [encodeHeader, hshapad, List.append_assoc]
  have hlen : 64 ≤ (encodeHeader h ++ rest).length := by
    rw [List.length_append, encodeHeader_length]
    omega
  rw [hinput] at hlen ⊢
  have d4 : (u32le h.magic ++ (u32le h.targetVersion ++ (u32le h.minVersion ++ (u32le h.numChunks ++ (u64le h.uncompressedSize ++ (u32le h.compression ++ (u64le h.compressedSize ++ (h.sha1 ++ (List.replicate 8 0 ++ (rest)))))))))).drop 4 = u32le h.targetVersion ++ (u32le h.minVersion ++ (u32le h.numChunks ++ (u64le h.uncompressedSize ++ (u32le h.compression ++ (u64le h.compressedSize ++ (h.sha1 ++ (List.replicate 8 0 ++ (rest)))))))) := by
    exact drop_prefix_append _ _ 4 (u32le_length _)
  have d8 : (u32le h.magic ++ (u32le h.targetVersion ++ (u32le h.minVersion ++ (u32le h.numChunks ++ (u64le h.uncompressedSize ++ (u32le h.compression ++ (u64le h.compressedSize ++ (h.sha1 ++ (List.replicate 8 0 ++ (rest)))))))))).drop 8 = u32le h.minVersion ++ (u32le h.numChunks ++ (u64le h.uncompressedSize ++ (u32le h.compression ++ (u64le h.compressedSize ++ (h.sha1 ++ (List.replicate 8 0 ++ (rest))))))) := by
    rw [show (8 : Nat) = 4 + 4 from rfl, ← List.drop_drop, d4]
    exact drop_prefix_append _ _ 4 (u32le_length _)
  have d12 : (u32le h.magic ++ (u32le h.targetVersion ++ (u32le h.minVersion ++ (u32le h.numChunks ++ (u64le h.uncompressedSize ++ (u32le h.compression ++ (u64le h.compressedSize ++ (h.sha1 ++ (List.replicate 8 0 ++ (rest)))))))))).drop 12 = u32le h.numChunks ++ (u64le h.uncompressedSize ++ (u32le h.compression ++ (u64le h.compressedSize ++ (h.sha1 ++ (List.replicate 8 0 ++ (rest)))))) := by
    rw [show (12 : Nat) = 8 + 4 from rfl, ← List.drop_drop, d8]
    exact drop_prefix_append _ _ 4 (u32le_length _)
  have d16 : (u32le h.magic ++ (u32le h.targetVersion ++ (u32le h.minVersion ++ (u32le h.numChunks ++ (u64le h.uncompressedSize ++ (u32le h.compression ++ (u64le h.compressedSize ++ (h.sha1 ++ (List.replicate 8 0 ++ (rest)))))))))).drop 16 = u64le h.uncompressedSize ++ (u32le h.compression ++ (u64le h.compressedSize ++ (h.sha1 ++ (List.replicate 8 0 ++ (rest))))) := by
    rw [show (16 : Nat) = 12 + 4 from rfl, ← List.drop_drop, d12]
    exact drop_prefix_append _ _ 4 (u32le_length _)
  have d24 : (u32le h.magic ++ (u32le h.targetVersion ++ (u32le h.minVersion ++ (u32le h.numChunks ++ (u64le h.uncompressedSize ++ (u32le h.compression ++ (u64le h.compressedSize ++ (h.sha1 ++ (List.replicate 8 0 ++ (rest)))))))))).drop 24 = u32le h.compression ++ (u64le h.compressedSize ++ (h.sha1 ++ (List.replicate 8 0 ++ (rest)))) := by
    rw [show (24 : Nat) = 16 + 8 from rfl, ← List.drop_drop, d16]
    exact drop_prefix_append _ _ 8 (u64le_length _)
  have d28 : (u32le h.magic ++ (u32le h.targetVersion ++ (u32le h.minVersion ++ (u32le h.numChunks ++ (u64le h.uncompressedSize ++ (u32le h.compression ++ (u64le h.compressedSize ++ (h.sha1 ++ (List.replicate 8 0 ++ (rest)))))))))).drop 28 = u64le h.compressedSize ++ (h.sha1 ++ (List.replicate 8 0 ++ (rest))) := by
    rw [show (28 : Nat) = 24 + 4 from rfl, ← List.drop_drop, d24]
    exact drop_prefix_append _ _ 4 (u32le_length _)
  have d36 : (u32le h.magic ++ (u32le h.targetVersion ++ (u32le h.minVersion ++ (u32le h.numChunks ++ (u64le h.uncompressedSize ++ (u32le h.compression ++ (u64le h.compressedSize ++ (h.sha1 ++ (List.replicate 8 0 ++ (rest)))))))))).drop 36 = h.sha1 ++ (List.replicate 8 0 ++ (rest)) := by
    rw [show (36 : Nat) = 28 + 8 from rfl, ← List.drop_drop, d28]
    exact drop_prefix_append _ _ 8 (u64le_length _)
  have d56 : (u32le h.magic ++ (u32le h.targetVersion ++ (u32le h.minVersion ++ (u32le h.numChunks ++ (u64le h.uncompressedSize ++ (u32le h.compression ++ (u64le h.compressedSize ++ (h.sha1 ++ (List.replicate 8 0 ++ (rest)))))))))).drop 56 = List.replicate 8 0 ++ (rest) := by
    rw [show (56 : Nat) = 36 + 20 from rfl, ← List.drop_drop, d36]
    exact drop_prefix_append _ _ 20 hsha
  have d64 : (u32le h.magic ++ (u32le h.targetVersion ++ (u32le h.minVersion ++ (u32le h.numChunks ++ (u64le h.uncompressedSize ++ (u32le h.compression ++ (u64le h.compressedSize ++ (h.sha1 ++ (List.replicate 8 0 ++ (rest)))))))))).drop 64 = rest := by
    rw [show (64 : Nat) = 56 + 8 from rfl, ← List.drop_drop, d56]
    exact drop_prefix_append _ _ 8 (by simp)
  have t0 : (u32le h.magic ++ (u32le h.targetVersion ++ (u32le h.minVersion ++ (u32le h.numChunks ++ (u64le h.uncompressedSize ++ (u32le h.compression ++ (u64le h.compressedSize ++ (h.sha1 ++ (List.replicate 8 0 ++ (rest)))))))))).take 4 = u32le h.magic := by
    exact take_prefix_append _ _ 4 (u32le_length _)
  have t4 : ((u32le h.magic ++ (u32le h.targetVersion ++ (u32le h.minVersion ++ (u32le h.numChunks ++ (u64le h.uncompressedSize ++ (u32le h.compression ++ (u64le h.compressedSize ++ (h.sha1 ++ (List.replicate 8 0 ++ (rest)))))))))).drop 4).take 4 = u32le h.targetVersion := by
    rw [d4]
    exact take_prefix_append _ _ 4 (u32le_length _)
  have t8 : ((u32le h.magic ++ (u32le h.targetVersion ++ (u32le h.minVersion ++ (u32le h.numChunks ++ (u64le h.uncompressedSize ++ (u32le h.compression ++ (u64le h.compressedSize ++ (h.sha1 ++ (List.replicate 8 0 ++ (rest)))))))))).drop 8).take 4 = u32le h.minVersion := by
    rw [d8]
    exact take_prefix_append _ _ 4 (u32le_length _)
  have t12 : ((u32le h.magic ++ (u32le h.targetVersion ++ (u32le h.minVersion ++ (u32le h.numChunks ++ (u64le h.uncompressedSize ++ (u32le h.compression ++ (u64le h.compressedSize ++ (h.sha1 ++ (List.replicate 8 0 ++ (rest)))))))))).drop 12).take 4 = u32le h.numChunks := by
    rw [d12]
    exact take_prefix_append _ _ 4 (u32le_length _)
  have t16 : ((u32le h.magic ++ (u32le h.targetVersion ++ (u32le h.minVersion ++ (u32le h.numChunks ++ (u64le h.uncompressedSize ++ (u32le h.compression ++ (u64le h.compressedSize ++ (h.sha1 ++ (List.replicate 8 0 ++ (rest)))))))))).drop 16).take 8 = u64le h.uncompressedSize := by
    rw [d16]
    exact take_prefix_append _ _ 8 (u64le_length _)
  have t24 : ((u32le h.magic ++ (u32le h.targetVersion ++ (u32le h.minVersion ++ (u32le h.numChunks ++ (u64le h.uncompressedSize ++ (u32le h.compression ++ (u64le h.compressedSize ++ (h.sha1 ++ (List.replicate 8 0 ++ (rest)))))))))).drop 24).take 4 = u32le h.compression := by
    rw [d24]
    exact take_prefix_append _ _ 4 (u32le_length _)
  have t28 : ((u32le h.magic ++ (u32le h.targetVersion ++ (u32le h.minVersion ++ (u32le h.numChunks ++ (u64le h.uncompressedSize ++ (u32le h.compression ++ (u64le h.compressedSize ++ (h.sha1 ++ (List.replicate 8 0 ++ (rest)))))))))).drop 28).take 8 = u64le h.compressedSize := by
    rw [d28]
    exact take_prefix_append _ _ 8 (u64le_length _)
  have t36 : ((u32le h.magic ++ (u32le h.targetVersion ++ (u32le h.minVersion ++ (u32le h.numChunks ++ (u64le h.uncompressedSize ++ (u32le h.compression ++ (u64le h.compressedSize ++ (h.sha1 ++ (List.replicate 8 0 ++ (rest)))))))))).drop 36).take 20 = h.sha1 := by
    rw [d36]
    exact take_prefix_append _ _ 20 hsha
  simp only [parseHeader, if_pos hlen, t0, t4, t8, t12, t16, t24, t28, t36, d64,
    u32dec_u32le, u64dec_u64le, Nat.mod_eq_of_lt hm, Nat.mod_eq_of_lt htv,
    Nat.mod_eq_of_lt hmv, Nat.mod_eq_of_lt hnc, Nat.mod_eq_of_lt hus,
    Nat.mod_eq_of_lt hcp, Nat.mod_eq_of_lt hcs]

/-- Parsing the emitted directory bytes recovers the entries verbatim. -/
theorem parseEntries_encode : ∀ (l : List ChunkEntry) (rest : List Nat),
    l.all entryWf = true →
    parseEntries l.length ((l.map encodeEntry).flatten ++ rest) = some (l, rest)
  | [], rest, _ => by simp [parseEntries]
  | e :: tl, rest, hwf => by
      simp only [List.all_cons, Bool.and_eq_true] at hwf
      obtain ⟨hew, htl⟩ := hwf
      simp only [entryWf, Bool.and_eq_true, decide_eq_true_eq] at hew
      obtain ⟨⟨hid, hof⟩, hln⟩ := hew
      have hinput : ((e :: tl).map encodeEntry).flatten ++ rest =
          u32le e.entryId ++ (u64le e.offset ++ (u64le e.length ++
            ((tl.map encodeEntry).flatten ++ rest))) := by
        simp only [List.map_cons, List.flatten_cons, encodeEntry, List.append_assoc]
      have hlen20 : 20 ≤ (((e :: tl).map encodeEntry).flatten ++ rest).length := by
        rw [hinput]
        simp [u32le_length, u64le_length]
        omega
      rw [hinput] at hlen20 ⊢
      have t0 : (u32le e.entryId ++ (u64le e.offset ++ (u64le e.length ++ ((tl.map encodeEntry).flatten ++ rest)))).take 4 = u32le e.entryId := by
        exact take_prefix_append _ _ 4 (u32le_length _)
      have d4 : (u32le e.entryId ++ (u64le e.offset ++ (u64le e.length ++ ((tl.map encodeEntry).flatten ++ rest)))).drop 4 = u64le e.offset ++ (u64le e.length ++ ((tl.map encodeEntry).flatten ++ rest)) := by
        exact drop_prefix_append _ _ 4 (u32le_length _)
      have t4 : ((u32le e.entryId ++ (u64le e.offset ++ (u64le e.length ++ ((tl.map encodeEntry).flatten ++ rest)))).drop 4).take 8 = u64le e.offset := by
        rw [d4]
        exact take_prefix_append _ _ 8 (u64le_length _)
      have d12 : (u32le e.entryId ++ (u64le e.offset ++ (u64le e.length ++ ((tl.map encodeEntry).flatten ++ rest)))).drop 12 = u64le e.length ++ ((tl.map encodeEntry).flatten ++ rest) := by
        rw [show (12 : Nat) = 4 + 8 from rfl, ← List.drop_drop, d4]
        exact drop_prefix_append _ _ 8 (u64le_length _)
      have t12 : ((u32le e.entryId ++ (u64le e.offset ++ (u64le e.length ++ ((tl.map encodeEntry).flatten ++ rest)))).drop 12).take 8 = u64le e.length := by
        rw [d12]
        exact take_prefix_append _ _ 8 (u64le_length _)
      have d20 : (u32le e.entryId ++ (u64le e.offset ++ (u64le e.length ++ ((tl.map encodeEntry).flatten ++ rest)))).drop 20 = (tl.map encodeEntry).flatten ++ rest := by
        rw [show (20 : Nat) = 12 + 8 from rfl, ← List.drop_drop, d12]
        exact drop_prefix_append _ _ 8 (u64le_length _)
      have hrec := parseEntries_encode tl rest htl
      rw [show (e :: tl).length = tl.length + 1 from rfl]
      simp only [parseEntries, if_pos hlen20, d20, hrec, t0, t4, t12,
        u32dec_u32le, u64dec_u64le, Nat.mod_eq_of_lt hid, Nat.mod_eq_of_lt hof,
        Nat.mod_eq_of_lt hln]

/-- The block-reading loop consumes exactly `n` bytes when they are
available. -/
theorem readBlocks_ok (n : Nat) (input : List Nat) (hle : n ≤ input.length) :
    readBlocks n input = .ok (input.take n, input.drop n) := by
  induction n using Nat.strong_induction_on generalizing input with
  | _ n ih =>
    by_cases h2 : n ≤ 2048
    · have hmin : min n 2048 = n := by omega
      have hnlt : ¬input.length < n := by omega
      rw [readBlocks.eq_def]
      simp only [hmin, if_neg hnlt, dif_pos h2]
    · have hrec := ih (n - 2048) (by omega) (input.drop 2048)
        (by simp; omega)
      have hmin : min n 2048 = 2048 := by omega
      have hnlt : ¬input.length < 2048 := by omega
      rw [readBlocks.eq_def]
      simp only [hmin, if_neg hnlt, dif_neg h2, hrec, bind, Except.bind]
      rw [show input.take 2048 ++ (input.drop 2048).take (n - 2048) =
          input.take (2048 + (n - 2048)) from (List.take_add ..).symm]
      rw [show (input.drop 2048).drop (n - 2048) = input.drop (2048 + (n - 2048)) from
        List.drop_drop ..]
      rw [show 2048 + (n - 2048) = n from by omega]

theorem readBlocks_all (bs : List Nat) :
    readBlocks bs.length bs = .ok (bs, []) := by
  have h := readBlocks_ok bs.length bs (Nat.le_refl _)
  rwa [List.take_length, List.drop_length] at h

/-- Transport: READING-mode construction of the bytes emitted by
WRITING-mode finalization (with the compression codecs mutually inverse on
the payload) recovers the chunk directory and the uncompressed buffer, with
the cursor at the end of the buffer. -/
theorem construct_finalize_gzip
    (deflate : List Nat → Option (List Nat)) (sha1F : List Nat → List Nat)
    (inflate : List Nat → Option (List Nat)) (st : OrcaState) (cb : List Nat)
    (hcomp : st.header.compression = COMPRESSION_GZIP)
    (hdef : deflate st.buffer.data = some cb)
    (hinf : inflate cb = some st.buffer.data)
    (hwfh : headerWf
      ⟨st.header.magic, st.header.targetVersion, st.header.minVersion,
        st.chunks.length, st.buffer.data.length, COMPRESSION_GZIP, cb.length,
        sha1F st.buffer.data⟩ = true)
    (hents : st.chunks.all entryWf = true) :
    orcaConstructRead inflate (orcaFinalize deflate sha1F st).2 =
      .ok ⟨⟨st.header.magic, st.header.targetVersion, st.header.minVersion,
        st.chunks.length, st.buffer.data.length, COMPRESSION_GZIP, cb.length,
        sha1F st.buffer.data⟩, st.chunks,
        ⟨st.buffer.data, st.buffer.data.length⟩⟩ := by
  obtain ⟨⟨m, tv, mv, nc, us, comp, cs, sha⟩, chunks, buf⟩ := st
  simp only at hcomp hdef hinf hwfh hents ⊢
  subst hcomp
  have hfin : orcaFinalize deflate sha1F
      ⟨⟨m, tv, mv, nc, us, COMPRESSION_GZIP, cs, sha⟩, chunks, buf⟩ =
      (⟨m, tv, mv, chunks.length, buf.data.length, COMPRESSION_GZIP, cb.length,
          sha1F buf.data⟩,
        encodeHeader ⟨m, tv, mv, chunks.length, buf.data.length, COMPRESSION_GZIP,
          cb.length, sha1F buf.data⟩ ++
          (chunks.map encodeEntry).flatten ++ cb) := by
    simp only [orcaFinalize, if_pos rfl, hdef, if_true]
  rw [hfin]
  have hph := parseHeader_encode
    ⟨m, tv, mv, chunks.length, buf.data.length, COMPRESSION_GZIP, cb.length,
      sha1F buf.data⟩
    ((chunks.map encodeEntry).flatten ++ cb) hwfh
  have hpe := parseEntries_encode chunks cb hents
  have hrb := readBlocks_all cb
  simp only [orcaConstructRead, List.append_assoc, hph, hpe, hrb, bind,
    Except.bind, if_pos rfl, hinf, pure, Except.pure, if_true]

/-- Every failure of the READING-mode constructor is a truncation. -/
theorem readBlocks_error (n : Nat) (input : List Nat) (e : OrcaErr)
    (h : readBlocks n input = .error e) : e = .Truncated := by
  induction n using Nat.strong_induction_on generalizing input with
  | _ n ih =>
    rw [readBlocks.eq_def] at h
    by_cases h1 : input.length < min n 2048
    · rw [if_pos h1] at h
      exact (Except.error.injEq .. ▸ h).symm
    · rw [if_neg h1] at h
      by_cases h2 : n ≤ 2048
      · rw [dif_pos h2] at h
        exact absurd h (by simp)
      · rw [dif_neg h2] at h
        cases hrec : readBlocks (n - 2048) (input.drop 2048) with
        | ok p =>
            rw [hrec] at h
            exact absurd h (by simp [bind, Except.bind])
        | error e' =>
            rw [hrec] at h
            simp [bind, Except.bind] at h
            rw [h] at hrec
            exact ih (n - 2048) (by omega) (input.drop 2048) hrec

/-- The READING-mode constructor can only fail with `Truncated` or
`InflateError`: no header validation of any kind is performed. -/
theorem orcaConstructRead_errors (inflate : List Nat → Option (List Nat))
    (input : List Nat) (e : OrcaErr)
    (h : orcaConstructRead inflate input = .error e) :
    e = .Truncated ∨ e = .InflateError := by
  unfold orcaConstructRead at h
  split at h
  · exact Or.inl (Except.error.injEq .. ▸ h).symm
  · split at h
    · exact Or.inl (Except.error.injEq .. ▸ h).symm
    · split at h
      next e' hrb =>
        have he : e' = e := Except.error.injEq .. ▸ h
        exact Or.inl (he ▸ readBlocks_error _ _ _ hrb)
      next payload rest3 hrb =>
        split at h
        · split at h
          · exact Or.inr (Except.error.injEq .. ▸ h).symm
          · exact absurd h (by simp)
        · exact absurd h (by simp)

/-! ## Array-stack discipline -/

theorem beginArrayW_any (st : ChunkState) :
    beginArray .WRITING st =
      .ok (0, ⟨(writeU32 0 (writeU32 0 st)).buffer,
        ⟨st.buffer.pos, (writeU32 0 (writeU32 0 st)).buffer.pos, 0, 0⟩ ::
          st.arrayStack⟩) := rfl

theorem beginArrayR_stack (st : ChunkState) (c : Nat) (st1 : ChunkState)
    (h : beginArray .READING st = .ok (c, st1)) :
    ∃ a buf, st1 = ⟨buf, a :: st.arrayStack⟩ := by
  simp only [beginArray, readU32, readBuffer, bind, Except.bind] at h
  cases hr : st.buffer.read 4 with
  | error e => rw [hr] at h; exact absurd h (by simp)
  | ok p1 =>
      rw [hr] at h
      simp only [pure, Except.pure] at h
      cases hr2 : (⟨p1.2, st.arrayStack⟩ : ChunkState).buffer.read 4 with
      | error e => rw [hr2] at h; exact absurd h (by simp)
      | ok p2 =>
          rw [hr2] at h
          simp only [pure, Except.pure, Except.ok.injEq, Prod.mk.injEq] at h
          exact ⟨⟨0, p2.2.pos, u32dec p1.1, u32dec p2.1⟩, p2.2, h.2.symm⟩

theorem endArrayW_stack (buf : MemoryStream) (a : ArrayState)
    (S : List ArrayState) (st' : ChunkState)
    (h : endArray .WRITING ⟨buf, a :: S⟩ = .ok st') : st'.arrayStack = S := by
  simp only [endArray] at h
  by_cases hc : buf.pos ≠ a.startPos + 8 ∧ a.count = 0
  · rw [if_pos hc] at h; exact absurd h (by simp)
  · rw [if_neg hc] at h
    simp only [Except.ok.injEq] at h
    rw [← h]
    rfl

theorem nextArrayElementW_stack (buf : MemoryStream) (a : ArrayState)
    (S : List ArrayState) (b : Bool) (st' : ChunkState)
    (h : nextArrayElement .WRITING ⟨buf, a :: S⟩ = .ok (b, st')) :
    ∃ a' buf', st' = ⟨buf', a' :: S⟩ := by
  simp only [nextArrayElement, Except.ok.injEq, Prod.mk.injEq] at h
  exact ⟨_, _, h.2.symm⟩

theorem nextArrayElementR_stack (buf : MemoryStream) (a : ArrayState)
    (S : List ArrayState) (b : Bool) (st' : ChunkState)
    (h : nextArrayElement .READING ⟨buf, a :: S⟩ = .ok (b, st')) :
    ∃ a' buf', st' = ⟨buf', a' :: S⟩ := by
  simp only [nextArrayElement] at h
  by_cases hc : a.count = 0
  · rw [if_pos hc] at h
    simp only [Except.ok.injEq, Prod.mk.injEq] at h
    exact ⟨a, buf, h.2.symm⟩
  · rw [if_neg hc] at h
    simp only [Except.ok.injEq, Prod.mk.injEq] at h
    exact ⟨_, _, h.2.symm⟩

mutual

/-- WRITING-mode codecs leave the array stack exactly as they found it: each
`BeginArray` is matched by the `EndArray` of the same primitive. -/
theorem runWrite_stack (v : Value) : ∀ (st st' : ChunkState),
    runWrite v st = .ok st' → st'.arrayStack = st.arrayStack := by
  cases v with
  | scalar bs =>
      intro st st' h
      simp only [runWrite, Except.ok.injEq] at h
      rw [← h]; rfl
  | str s =>
      intro st st' h
      simp only [runWrite, Except.ok.injEq] at h
      rw [← h]; rfl
  | skip =>
      intro st st' h
      simp only [runWrite, Except.ok.injEq] at h
      rw [← h]
  | seq a b =>
      intro st st' h
      simp only [runWrite, bind, Except.bind] at h
      cases ha : runWrite a st with
      | error e => rw [ha] at h; exact absurd h (by simp)
      | ok mid =>
          rw [ha] at h
          rw [runWrite_stack b mid st' h, runWrite_stack a st mid ha]
  | vec es =>
      intro st st' h
      simp only [runWrite, bind, Except.bind, beginArrayW_any] at h
      cases he : runWriteElems es ⟨(writeU32 0 (writeU32 0 st)).buffer,
          ⟨st.buffer.pos, (writeU32 0 (writeU32 0 st)).buffer.pos, 0, 0⟩ ::
            st.arrayStack⟩ with
      | error e => rw [he] at h; exact absurd h (by simp)
      | ok st2 =>
          rw [he] at h
          obtain ⟨a', buf', hst2⟩ := runWriteElems_stack es _ _ _ _ he
          rw [hst2] at h
          exact endArrayW_stack buf' a' st.arrayStack st' h
  | arr cap es =>
      intro st st' h
      simp only [runWrite, bind, Except.bind, beginArrayW_any] at h
      cases he : runWriteElems es ⟨(writeU32 0 (writeU32 0 st)).buffer,
          ⟨st.buffer.pos, (writeU32 0 (writeU32 0 st)).buffer.pos, 0, 0⟩ ::
            st.arrayStack⟩ with
      | error e => rw [he] at h; exact absurd h (by simp)
      | ok st2 =>
          rw [he] at h
          obtain ⟨a', buf', hst2⟩ := runWriteElems_stack es _ _ _ _ he
          rw [hst2] at h
          exact endArrayW_stack buf' a' st.arrayStack st' h

/-- The WRITING-mode element loop touches only the top frame. -/
theorem runWriteElems_stack (es : Elems) : ∀ (buf : MemoryStream)
    (a : ArrayState) (S : List ArrayState) (st' : ChunkState),
    runWriteElems es ⟨buf, a :: S⟩ = .ok st' →
    ∃ a' buf', st' = ⟨buf', a' :: S⟩ := by
  cases es with
  | nil =>
      intro buf a S st' h
      simp only [runWriteElems, Except.ok.injEq] at h
      exact ⟨a, buf, h.symm⟩
  | cons v tl =>
      intro buf a S st' h
      simp only [runWriteElems, bind, Except.bind] at h
      cases hv : runWrite v ⟨buf, a :: S⟩ with
      | error e => rw [hv] at h; exact absurd h (by simp)
      | ok st1 =>
          simp only [hv] at h
          have hstk := runWrite_stack v _ _ hv
          have hst1 : st1 = ⟨st1.buffer, a :: S⟩ := by
            cases st1; simp_all
          rw [hst1] at h
          cases hn : nextArrayElement .WRITING ⟨st1.buffer, a :: S⟩ with
          | error e => rw [hn] at h; exact absurd h (by simp)
          | ok p =>
              simp only [hn] at h
              obtain ⟨b, st2⟩ := p
              obtain ⟨a2, buf2, hst2⟩ := nextArrayElementW_stack _ _ _ _ _ hn
              rw [hst2] at h
              exact runWriteElems_stack tl buf2 a2 S st' h

end

/-- Stack preservation for the READING loops, parameterized by the element
codec's own stack preservation. -/
theorem readLoop_stack (f : ChunkState → Except OrcaErr (Value × ChunkState))
    (Hf : ∀ st v st', f st = .ok (v, st') → st'.arrayStack = st.arrayStack) :
    ∀ (n : Nat) (buf : MemoryStream) (a : ArrayState) (S : List ArrayState)
      (es : Elems) (st' : ChunkState),
      readLoop f n ⟨buf, a :: S⟩ = .ok (es, st') →
      ∃ a' buf', st' = ⟨buf', a' :: S⟩
  | 0, buf, a, S, es, st', h => by
      simp only [readLoop, Except.ok.injEq, Prod.mk.injEq] at h
      exact ⟨a, buf, h.2.symm⟩
  | n + 1, buf, a, S, es, st', h => by
      simp only [readLoop, bind, Except.bind] at h
      cases hv : f ⟨buf, a :: S⟩ with
      | error e => rw [hv] at h; exact absurd h (by simp)
      | ok p =>
          obtain ⟨v, st1⟩ := p
          simp only [hv] at h
          have hst1 : st1 = ⟨st1.buffer, a :: S⟩ := by
            have := Hf _ _ _ hv
            cases st1; simp_all
          rw [hst1] at h
          cases hn : nextArrayElement .READING ⟨st1.buffer, a :: S⟩ with
          | error e => rw [hn] at h; exact absurd h (by simp)
          | ok p2 =>
              obtain ⟨b, st2⟩ := p2
              simp only [hn] at h
              obtain ⟨a2, buf2, hst2⟩ := nextArrayElementR_stack _ _ _ _ _ hn
              rw [hst2] at h
              cases hl : readLoop f n ⟨buf2, a2 :: S⟩ with
              | error e => rw [hl] at h; exact absurd h (by simp)
              | ok p3 =>
                  obtain ⟨es3, st3⟩ := p3
                  simp only [hl] at h
                  obtain ⟨a3, buf3, hst3⟩ := readLoop_stack f Hf n buf2 a2 S es3 st3 hl
                  simp only [pure, Except.pure, Except.ok.injEq, Prod.mk.injEq] at h
                  refine ⟨a3, buf3, ?_⟩
                  rw [← h.2, hst3]

theorem readArrLoop_stack (f : ChunkState → Except OrcaErr (Value × ChunkState))
    (Hf : ∀ st v st', f st = .ok (v, st') → st'.arrayStack = st.arrayStack)
    (cap : Nat) :
    ∀ (n i : Nat) (buf : MemoryStream) (a : ArrayState) (S : List ArrayState)
      (es : Elems) (st' : ChunkState),
      readArrLoop f cap i n ⟨buf, a :: S⟩ = .ok (es, st') →
      ∃ a' buf', st' = ⟨buf', a' :: S⟩
  | 0, i, buf, a, S, es, st', h => by
      simp only [readArrLoop, Except.ok.injEq, Prod.mk.injEq] at h
      exact ⟨a, buf, h.2.symm⟩
  | n + 1, i, buf, a, S, es, st', h => by
      simp only [readArrLoop, bind, Except.bind] at h
      by_cases hi : i < cap
      · rw [if_pos hi] at h
        cases hv : f ⟨buf, a :: S⟩ with
        | error e => rw [hv] at h; exact absurd h (by simp)
        | ok p =>
            obtain ⟨v, st1⟩ := p
            simp only [hv] at h
            have hst1 : st1 = ⟨st1.buffer, a :: S⟩ := by
              have := Hf _ _ _ hv
              cases st1; simp_all
            rw [hst1] at h
            cases hn : nextArrayElement .READING ⟨st1.buffer, a :: S⟩ with
            | error e => rw [hn] at h; exact absurd h (by simp)
            | ok p2 =>
                obtain ⟨b, st2⟩ := p2
                simp only [hn] at h
                obtain ⟨a2, buf2, hst2⟩ := nextArrayElementR_stack _ _ _ _ _ hn
                rw [hst2] at h
                cases hl : readArrLoop f cap (i + 1) n ⟨buf2, a2 :: S⟩ with
                | error e => rw [hl] at h; exact absurd h (by simp)
                | ok p3 =>
                    obtain ⟨es3, st3⟩ := p3
                    simp only [hl] at h
                    obtain ⟨a3, buf3, hst3⟩ :=
                      readArrLoop_stack f Hf cap n (i + 1) buf2 a2 S es3 st3 hl
                    simp only [pure, Except.pure, Except.ok.injEq, Prod.mk.injEq] at h
                    refine ⟨a3, buf3, ?_⟩
                    rw [← h.2, hst3]
      · rw [if_neg hi] at h
        cases hn : nextArrayElement .READING ⟨buf, a :: S⟩ with
        | error e => rw [hn] at h; exact absurd h (by simp)
        | ok p2 =>
            obtain ⟨b, st2⟩ := p2
            simp only [hn] at h
            obtain ⟨a2, buf2, hst2⟩ := nextArrayElementR_stack _ _ _ _ _ hn
            rw [hst2] at h
            cases hl : readArrLoop f cap (i + 1) n ⟨buf2, a2 :: S⟩ with
            | error e => rw [hl] at h; exact absurd h (by simp)
            | ok p3 =>
                obtain ⟨es3, st3⟩ := p3
                simp only [hl] at h
                obtain ⟨a3, buf3, hst3⟩ :=
                  readArrLoop_stack f Hf cap n (i + 1) buf2 a2 S es3 st3 hl
                simp only [pure, Except.pure, Except.ok.injEq, Prod.mk.injEq] at h
                refine ⟨a3, buf3, ?_⟩
                rw [← h.2, hst3]

/-- READING-mode codecs leave the array stack exactly as they found it. -/
theorem runRead_stack : ∀ (sh : Shape) (st : ChunkState) (v : Value)
    (st' : ChunkState), runRead sh st = .ok (v, st') →
    st'.arrayStack = st.arrayStack := by
  intro sh
  induction sh with
  | scalar k =>
      intro st v st' h
      simp only [runRead, readBuffer, bind, Except.bind] at h
      cases hr : st.buffer.read k with
      | error e => rw [hr] at h; exact absurd h (by simp)
      | ok p =>
          rw [hr] at h
          simp only [pure, Except.pure, Except.ok.injEq, Prod.mk.injEq] at h
          rw [← h.2]
  | str =>
      intro st v st' h
      simp only [runRead, readString, bind, Except.bind] at h
      cases hs : scanNul (st.buffer.data.drop st.buffer.pos) with
      | none => rw [hs] at h; exact absurd h (by simp)
      | some p =>
          rw [hs] at h
          obtain ⟨s, n⟩ := p
          simp only [pure, Except.pure, Except.ok.injEq, Prod.mk.injEq] at h
          rw [← h.2]
  | skip =>
      intro st v st' h
      simp only [runRead, Except.ok.injEq, Prod.mk.injEq] at h
      rw [← h.2]
  | seq a b iha ihb =>
      intro st v st' h
      simp only [runRead, bind, Except.bind] at h
      cases ha : runRead a st with
      | error e => rw [ha] at h; exact absurd h (by simp)
      | ok p =>
          obtain ⟨va, st1⟩ := p
          simp only [ha] at h
          cases hb : runRead b st1 with
          | error e => rw [hb] at h; exact absurd h (by simp)
          | ok p2 =>
              obtain ⟨vb, st2⟩ := p2
              simp only [hb] at h
              simp only [pure, Except.pure, Except.ok.injEq, Prod.mk.injEq] at h
              rw [← h.2, ihb st1 vb st2 hb, iha st va st1 ha]
  | vec sh ih =>
      intro st v st' h
      simp only [runRead, bind, Except.bind] at h
      cases hb : beginArray .READING st with
      | error e => rw [hb] at h; exact absurd h (by simp)
      | ok p =>
          obtain ⟨count, st1⟩ := p
          simp only [hb] at h
          obtain ⟨a0, buf0, hst1⟩ := beginArrayR_stack st count st1 hb
          rw [hst1] at h
          cases hl : readLoop (runRead sh) count ⟨buf0, a0 :: st.arrayStack⟩ with
          | error e => rw [hl] at h; exact absurd h (by simp)
          | ok p2 =>
              obtain ⟨es, st2⟩ := p2
              simp only [hl] at h
              obtain ⟨a2, buf2, hst2⟩ :=
                readLoop_stack (runRead sh) (fun s w s' hw => ih s w s' hw)
                  count buf0 a0 st.arrayStack es st2 hl
              rw [hst2] at h
              simp only [endArrayR, pure, Except.pure, Except.ok.injEq,
                Prod.mk.injEq] at h
              rw [← h.2]
  | arr cap sh ih =>
      intro st v st' h
      simp only [runRead, bind, Except.bind] at h
      cases hb : beginArray .READING st with
      | error e => rw [hb] at h; exact absurd h (by simp)
      | ok p =>
          obtain ⟨count, st1⟩ := p
          simp only [hb] at h
          obtain ⟨a0, buf0, hst1⟩ := beginArrayR_stack st count st1 hb
          rw [hst1] at h
          cases hl : readArrLoop (runRead sh) cap 0 count
              ⟨buf0, a0 :: st.arrayStack⟩ with
          | error e => rw [hl] at h; exact absurd h (by simp)
          | ok p2 =>
              obtain ⟨es, st2⟩ := p2
              simp only [hl] at h
              obtain ⟨a2, buf2, hst2⟩ :=
                readArrLoop_stack (runRead sh) (fun s w s' hw => ih s w s' hw)
                  cap count 0 buf0 a0 st.arrayStack es st2 hl
              rw [hst2] at h
              simp only [endArrayR, pure, Except.pure, Except.ok.injEq,
                Prod.mk.injEq] at h
              rw [← h.2]

/-! ## Remaining pure lemmas about the stride fold -/

theorem sizesAll_mem : ∀ (es : Elems) (k : Nat) (v : Value),
    sizesAll es k = true → elemMem v es → (encode v).length = k
  | .cons hd tl, k, v, hall, hm => by
      simp only [sizesAll, Bool.and_eq_true, beq_iff_eq] at hall
      cases hm with
      | inl h => rw [h]; exact hall.1
      | inr h => exact sizesAll_mem tl k v hall.2 h

theorem strideOf_of_sizesAll (es : Elems) (k : Nat) (hne : es ≠ .nil)
    (hall : sizesAll es k = true) : strideOf es = k := by
  cases es with
  | nil => exact absurd rfl hne
  | cons v tl =>
      simp only [sizesAll, Bool.and_eq_true, beq_iff_eq] at hall
      obtain ⟨hv, htl⟩ := hall
      simp only [strideOf, sizeList, stride, ← sizesAll_eq_all, hv, htl]
      simp

theorem strideOf_hetero (es : Elems) (v₁ v₂ : Value)
    (h1 : elemMem v₁ es) (h2 : elemMem v₂ es)
    (hne : (encode v₁).length ≠ (encode v₂).length) : strideOf es = 0 := by
  rcases strideOf_zero_or_sizesAll es with h | h
  · exact h
  · have e1 := sizesAll_mem es (strideOf es) v₁ h h1
    have e2 := sizesAll_mem es (strideOf es) v₂ h h2
    rw [e1, e2] at hne
    exact absurd rfl hne

theorem find?_eq_none_of_all {α : Type} (p : α → Bool) :
    ∀ (l : List α), (∀ x ∈ l, p x = false) → l.find? p = none
  | [], _ => rfl
  | x :: tl, h => by
      have hx := h x (by simp)
      rw [List.find?_cons, hx]
      exact find?_eq_none_of_all p tl (fun y hy => h y (by simp [hy]))

theorem find?_first {α : Type} (p : α → Bool) :
    ∀ (pre : List α) (e : α) (post : List α), (∀ x ∈ pre, p x = false) →
      p e = true → (pre ++ e :: post).find? p = some e
  | [], e, post, _, he => by simp [List.find?_cons, he]
  | x :: tl, e, post, hpre, he => by
      have hx := hpre x (by simp)
      rw [List.cons_append, List.find?_cons, hx]
      exact find?_first p tl e post (fun y hy => hpre y (by simp [hy])) he

/-! ## Claim theorems -/

/-- C4: in READING mode, `ReadWriteChunk` with an id that matches no
directory entry returns `false` without invoking the codec and leaves the
state (including the buffer position) unchanged; with a matching entry it
seeks the buffer to the offset of the first entry with that id, runs the
codec there, and returns `true` with whatever the codec produced. -/
theorem C4_reading_dispatch (st : OrcaState) (chunkId : Nat) (sh : Shape) :
    ((∀ e ∈ st.chunks, e.entryId ≠ chunkId) →
      readWriteChunkR chunkId sh st = .ok (false, none, st)) ∧
    (∀ (pre : List ChunkEntry) (e : ChunkEntry) (post : List ChunkEntry),
      st.chunks = pre ++ e :: post → e.entryId = chunkId →
      (∀ x ∈ pre, x.entryId ≠ chunkId) →
      readWriteChunkR chunkId sh st =
        (runRead sh ⟨⟨st.buffer.data, e.offset⟩, []⟩).map
          (fun p => (true, some p.1, ⟨st.header, st.chunks, p.2.buffer⟩))) := by
  constructor
  · intro hnone
    have hfind : st.chunks.find? (fun e => e.entryId == chunkId) = none := by
      apply find?_eq_none_of_all
      intro x hx
      simp [hnone x hx]
    simp only [readWriteChunkR, seekChunk, hfind]
  · intro pre e post hsplit he hpre
    have hfind : st.chunks.find? (fun x => x.entryId == chunkId) = some e := by
      rw [hsplit]
      apply find?_first
      · intro x hx
        simp [hpre x hx]
      · simp [he]
    simp only [readWriteChunkR, seekChunk, hfind, MemoryStream.setPosition]
    cases hr : runRead sh ⟨⟨st.buffer.data, e.offset⟩, []⟩ with
    | error err => simp [bind, Except.bind, hr, Except.map]
    | ok p => simp [bind, Except.bind, hr, Except.map, pure, Except.pure]

/-- C4 witness: a two-entry directory where the requested id misses, and a
hit on the second entry of a directory whose first entry has another id. -/
theorem C4_witness :
    readWriteChunkR 9 (.scalar 1)
        ⟨⟨0, 0, 0, 2, 2, 0, 2, []⟩, [⟨5, 0, 1⟩, ⟨6, 1, 1⟩], ⟨[65, 66], 2⟩⟩ =
      .ok (false, none,
        ⟨⟨0, 0, 0, 2, 2, 0, 2, []⟩, [⟨5, 0, 1⟩, ⟨6, 1, 1⟩], ⟨[65, 66], 2⟩⟩) ∧
    readWriteChunkR 6 (.scalar 1)
        ⟨⟨0, 0, 0, 2, 2, 0, 2, []⟩, [⟨5, 0, 1⟩, ⟨6, 1, 1⟩], ⟨[65, 66], 2⟩⟩ =
      .ok (true, some (.scalar [66]),
        ⟨⟨0, 0, 0, 2, 2, 0, 2, []⟩, [⟨5, 0, 1⟩, ⟨6, 1, 1⟩], ⟨[65, 66], 2⟩⟩) := by
  constructor
  · exact (C4_reading_dispatch _ 9 _).1 (by decide)
  · have h := (C4_reading_dispatch
      ⟨⟨0, 0, 0, 2, 2, 0, 2, []⟩, [⟨5, 0, 1⟩, ⟨6, 1, 1⟩], ⟨[65, 66], 2⟩⟩ 6
      (.scalar 1)).2 [⟨5, 0, 1⟩] ⟨6, 1, 1⟩ [] rfl rfl (by decide)
    rw [h]
    rfl

/-- C5: in WRITING mode, `ReadWriteChunk` appends exactly one directory
entry whose `Id` is the requested id, whose `Offset` is the buffer position
before the codec ran and whose `Length` is the cursor distance the codec
moved, and returns `true`. -/
theorem C5_writing_dispatch (st : OrcaState) (chunkId : Nat) (v : Value)
    (cs : ChunkState) (h : runWrite v ⟨st.buffer, []⟩ = .ok cs) :
    readWriteChunkW chunkId v st =
      .ok (true, ⟨st.header,
        st.chunks ++ [⟨chunkId, st.buffer.pos, cs.buffer.pos - st.buffer.pos⟩],
        cs.buffer⟩) := by
  simp only [readWriteChunkW, bind, Except.bind, h, pure, Except.pure]

/-- C5 witness: writing a 3-byte scalar chunk into a writer whose buffer
already holds 2 bytes records the entry `(id, 2, 3)`. -/
theorem C5_witness :
    readWriteChunkW 4 (.scalar [7, 8, 9])
        ⟨⟨0, 0, 0, 0, 0, 1, 0, []⟩, [⟨1, 0, 2⟩], ⟨[5, 6], 2⟩⟩ =
      .ok (true, ⟨⟨0, 0, 0, 0, 0, 1, 0, []⟩, [⟨1, 0, 2⟩, ⟨4, 2, 3⟩],
        ⟨[5, 6, 7, 8, 9], 5⟩⟩) := by
  have h := C5_writing_dispatch ⟨⟨0, 0, 0, 0, 0, 1, 0, []⟩, [⟨1, 0, 2⟩], ⟨[5, 6], 2⟩⟩
    4 (.scalar [7, 8, 9]) ⟨⟨[5, 6, 7, 8, 9], 5⟩, []⟩ rfl
  rw [h]
  rfl

/-- C6: WRITING-mode `EndArray` throws `MalformedArray` exactly when the
frame counted zero elements but the cursor is not 8 bytes past the frame
start; otherwise it back-patches `Count` and `ElementSize` as two `u32`
words at the frame start and restores the cursor. -/
theorem C6_endArray (d : List Nat) (p : Nat) (a : ArrayState)
    (S : List ArrayState) :
    (endArray .WRITING ⟨⟨d, p⟩, a :: S⟩ = .error .MalformedArray ↔
      (a.count = 0 ∧ p ≠ a.startPos + 8)) ∧
    (¬(a.count = 0 ∧ p ≠ a.startPos + 8) →
      endArray .WRITING ⟨⟨d, p⟩, a :: S⟩ =
        .ok ⟨(((⟨d, a.startPos⟩ : MemoryStream).write
            (u32le a.count)).write (u32le a.elementSize)).setPosition p, S⟩) := by
  constructor
  · constructor
    · intro h
      simp only [endArray] at h
      by_cases hc : p ≠ a.startPos + 8 ∧ a.count = 0
      · exact ⟨hc.2, hc.1⟩
      · rw [if_neg hc] at h
        exact absurd h (by simp)
    · intro ⟨hz, hne⟩
      simp only [endArray, if_pos (And.intro hne hz)]
  · intro hc
    have hc' : ¬(p ≠ a.startPos + 8 ∧ a.count = 0) := fun ⟨h1, h2⟩ => hc ⟨h2, h1⟩
    simp only [endArray, if_neg hc', writeU32, writeBuffer, MemoryStream.setPosition]

/-- C6 witness: a frame with one counted element is back-patched in place
(the cursor returns to its pre-patch position), and a frame with zero
counted elements but extra bytes raises `MalformedArray`. -/
theorem C6_witness :
    endArray .WRITING ⟨⟨[0, 0, 0, 0, 0, 0, 0, 0, 9], 9⟩, ⟨0, 9, 1, 1⟩ :: []⟩ =
      .ok ⟨⟨[1, 0, 0, 0, 1, 0, 0, 0, 9], 9⟩, []⟩ ∧
    endArray .WRITING ⟨⟨[0, 0, 0, 0, 0, 0, 0, 0, 9], 9⟩, ⟨0, 9, 0, 0⟩ :: []⟩ =
      .error .MalformedArray := by
  constructor
  · have h := (C6_endArray [0, 0, 0, 0, 0, 0, 0, 0, 9] 9 ⟨0, 9, 1, 1⟩ []).2
      (by decide)
    rw [h]
    rfl
  · exact (C6_endArray [0, 0, 0, 0, 0, 0, 0, 0, 9] 9 ⟨0, 9, 0, 0⟩ []).1.mpr
      (by decide)

/-- C7: `WriteString` emits the bytes of `s` up to but not including its
first NUL (all of `s` when it has none — the longest NUL-free prefix of `s`
in either case) followed by exactly one NUL, and `ReadString` over that
output returns exactly that NUL-free prefix, consuming the terminator. -/
theorem C7_string_roundtrip (s d : List Nat) (S : List ArrayState) :
    writeString s ⟨⟨d, d.length⟩, S⟩ =
      ⟨⟨d ++ (s.takeWhile (fun c => c ≠ 0) ++ [0]),
        d.length + ((s.takeWhile (fun c => c ≠ 0)).length + 1)⟩, S⟩ ∧
    (∀ b ∈ s.takeWhile (fun c => c ≠ 0), b ≠ 0) ∧
    readString ⟨⟨d ++ (s.takeWhile (fun c => c ≠ 0) ++ [0]), d.length⟩, S⟩ =
      .ok (s.takeWhile (fun c => c ≠ 0),
        ⟨⟨d ++ (s.takeWhile (fun c => c ≠ 0) ++ [0]),
          d.length + ((s.takeWhile (fun c => c ≠ 0)).length + 1)⟩, S⟩) := by
  refine ⟨writeString_at_end s d S, takeWhile_nulfree_mem s, ?_⟩
  have hdrop : (d ++ (s.takeWhile (fun c => c ≠ 0) ++ [0])).drop d.length =
      s.takeWhile (fun c => c ≠ 0) ++ [0] := List.drop_left _ _
  have hscan : scanNul (s.takeWhile (fun c => c ≠ 0) ++ [0]) =
      some (s.takeWhile (fun c => c ≠ 0),
        (s.takeWhile (fun c => c ≠ 0)).length + 1) := by
    have h := scanNul_append (s.takeWhile (fun c => c ≠ 0)) []
      (takeWhile_nulfree_mem s)
    simpa using h
  simp only [readString, hdrop, hscan]

/-- C2 (amended): the WRITING-mode array primitives back-patch the frame
header with the element count and the auto-detected stride: when the frame
is nonempty and every element body took the same `k ≥ 1` bytes the stored
`ElementSize` equals `k` (in particular it is nonzero); when two elements
took different byte counts it is 0.  (When every element took 0 bytes, or
no element was written, the stored `ElementSize` is 0, not `k`.) -/
theorem C2_elementSize (es : Elems) (d : List Nat) (S : List ArrayState) :
    (runWrite (.vec es) ⟨⟨d, d.length⟩, S⟩ =
      .ok ⟨⟨d ++ (u32le (elemsCount es) ++ (u32le (strideOf es) ++ encodeElems es)),
        d.length + (encode (.vec es)).length⟩, S⟩) ∧
    (∀ k, 0 < k → es ≠ .nil → sizesAll es k = true →
      strideOf es = k ∧ strideOf es ≠ 0) ∧
    (∀ v₁ v₂, elemMem v₁ es → elemMem v₂ es →
      (encode v₁).length ≠ (encode v₂).length → strideOf es = 0) := by
  refine ⟨?_, ?_, ?_⟩
  · have h := runWrite_ok (.vec es) d S
    rw [h, encode_vec]
  · intro k hk hne hall
    have := strideOf_of_sizesAll es k hne hall
    exact ⟨this, by omega⟩
  · exact strideOf_hetero es

/-- C2 witness: a vector of two 2-byte scalars stores `ElementSize = 2`, and
a vector of a 1-byte and a 2-byte scalar stores `ElementSize = 0`. -/
theorem C2_witness :
    runWrite (.vec (.cons (.scalar [7, 8]) (.cons (.scalar [9, 10]) .nil)))
        ⟨⟨[], 0⟩, []⟩ =
      .ok ⟨⟨[2, 0, 0, 0, 2, 0, 0, 0, 7, 8, 9, 10], 12⟩, []⟩ ∧
    strideOf (.cons (.scalar [7, 8]) (.cons (.scalar [9, 10]) .nil)) = 2 ∧
    strideOf (.cons (.scalar [7]) (.cons (.scalar [9, 10]) .nil)) = 0 := by
  refine ⟨?_, ?_, ?_⟩
  · have h := (C2_elementSize (.cons (.scalar [7, 8]) (.cons (.scalar [9, 10]) .nil))
      [] []).1
    rw [show ([] : List Nat).length = 0 from rfl] at h
    rw [h]
    rfl
  · exact ((C2_elementSize (.cons (.scalar [7, 8]) (.cons (.scalar [9, 10]) .nil))
      [] []).2.1 2 (by omega) (by simp) (by decide)).1
  · exact (C2_elementSize (.cons (.scalar [7]) (.cons (.scalar [9, 10]) .nil))
      [] []).2.2 (.scalar [7]) (.scalar [9, 10]) (Or.inl rfl) (Or.inr (Or.inl rfl))
      (by decide)

/-- C2 counterexample to the claim as stated: a writer-side vector of two
elements that each advance the cursor by the same number of bytes (zero) —
the back-patched `ElementSize` is 0, not nonzero.  The frame bytes show the
stored header `Count = 2, ElementSize = 0`. -/
theorem C2_counterexample :
    runWrite (.vec (.cons .skip (.cons .skip .nil))) ⟨⟨[], 0⟩, []⟩ =
      .ok ⟨⟨[2, 0, 0, 0, 0, 0, 0, 0], 8⟩, []⟩ ∧
    sizesAll (.cons .skip (.cons .skip .nil)) 0 = true ∧
    u32dec (([2, 0, 0, 0, 0, 0, 0, 0] : List Nat).drop 4 |>.take 4) = 0 := by
  refine ⟨rfl, rfl, rfl⟩

/-- C3 (amended): reading a fixed-size-array frame whose stored count is
`elemsCount es + m` into a target of capacity `elemsCount es` stores only
the first `elemsCount es` elements; the `m` excess iterations never invoke
the element codec and advance the cursor by the frame's `ElementSize` each
— so excess elements are skipped in a fixed-stride frame but the cursor
does not move past them in a variable-stride frame (`strideOf es = 0`). -/
theorem C3_excess (sh : Shape) (es : Elems) (m : Nat) (pre post : List Nat)
    (S : List ArrayState)
    (hwfe : wfElems sh es = true) (hfit : sizesFit es = true)
    (hcnt : elemsCount es + m < 2 ^ 32) :
    runRead (.arr (elemsCount es) sh)
        ⟨⟨pre ++ (u32le (elemsCount es + m) ++ (u32le (strideOf es) ++
          (encodeElems es ++ post))), pre.length⟩, S⟩ =
      .ok (.arr (elemsCount es) es,
        ⟨⟨pre ++ (u32le (elemsCount es + m) ++ (u32le (strideOf es) ++
          (encodeElems es ++ post))),
          pre.length + 8 + (encodeElems es).length + m * strideOf es⟩, S⟩) := by
  have hbeg := beginArrayR pre (encodeElems es ++ post)
    (elemsCount es + m) (strideOf es) S
  rw [Nat.mod_eq_of_lt hcnt,
    Nat.mod_eq_of_lt (strideOf_lt_of_sizesFit es hfit)] at hbeg
  have hloop := readArrLoop_ok (runRead sh) es m (elemsCount es) 0
    (pre ++ (u32le (elemsCount es + m) ++ u32le (strideOf es))) post S
    ⟨0, pre.length + 8, elemsCount es + m, strideOf es⟩
    (fun w hw => runRead_ok sh w (wfElems_mem sh es w hwfe hw))
    (by omega)
    (by simp)
    (by
      rcases strideOf_zero_or_sizesAll es with h | h
      · exact Or.inl h
      · exact Or.inr h)
    (by intro _; simp [u32le_length])
  obtain ⟨a', ha'⟩ := hloop
  rw [show (pre ++ (u32le (elemsCount es + m) ++ u32le (strideOf es))) ++
      (encodeElems es ++ post) =
      pre ++ (u32le (elemsCount es + m) ++ (u32le (strideOf es) ++
        (encodeElems es ++ post))) from by
    simp [List.append_assoc]] at ha'
  rw [show (pre ++ (u32le (elemsCount es + m) ++ u32le (strideOf es))).length =
      pre.length + 8 from by simp [u32le_length]] at ha'
  simp only [runRead, bind, Except.bind, hbeg, ha', endArrayR, pure, Except.pure]
  rw [show min (elemsCount es + m) (elemsCount es) = elemsCount es from by omega]
  rw [show elemsCount es - elemsCount es = 0 from by omega]
  rw [show elemsAppend es (replicateElems (defaultValue sh) 0) = es from
    elemsAppend_nil es]

/-- C3 witness: a fixed-stride frame (`ElementSize = 1`) with stored count 3
read into a capacity-1 array stores one element and skips the two excess
one-byte bodies (cursor `9 + 2`); the same shape over a variable-stride
frame leaves the cursor where the last stored element left it. -/
theorem C3_witness :
    runRead (.arr 1 (.scalar 1))
        ⟨⟨u32le 3 ++ (u32le 1 ++ ([7] ++ [8, 9])), 0⟩, []⟩ =
      .ok (.arr 1 (.cons (.scalar [7]) .nil),
        ⟨⟨u32le 3 ++ (u32le 1 ++ ([7] ++ [8, 9])), 11⟩, []⟩) := by
  have h := C3_excess (.scalar 1) (.cons (.scalar [7]) .nil) 2 [] [8, 9] []
    (by decide) (by decide) (by decide)
  simpa using h

/-- C3 counterexample to the claim as stated: in a variable-stride frame
(`element_size = 0`) with stored count 2 and capacity 1, the excess element
is NOT consumed — the element codec is not invoked for it and the cursor
stays at 9 (just past the one stored element) instead of advancing past the
excess byte to 10. -/
theorem C3_counterexample :
    runRead (.arr 1 (.scalar 1)) ⟨⟨[2, 0, 0, 0, 0, 0, 0, 0, 7, 8], 0⟩, []⟩ =
      .ok (.arr 1 (.cons (.scalar [7]) .nil),
        ⟨⟨[2, 0, 0, 0, 0, 0, 0, 0, 7, 8], 9⟩, []⟩) ∧
    (9 : Nat) ≠ 10 := by
  exact ⟨rfl, by decide⟩

/-- C7 witness: the string consisting of only a NUL byte is written as the
single terminator byte and round-trips as the empty string. -/
theorem C7_witness :
    writeString [0] ⟨⟨[], 0⟩, []⟩ = ⟨⟨[0], 1⟩, []⟩ ∧
    readString ⟨⟨[0], 0⟩, []⟩ = .ok ([], ⟨⟨[0], 1⟩, []⟩) := by
  have h := C7_string_roundtrip [0] [] []
  rw [show ([0] : List Nat).takeWhile (fun c => c ≠ 0) = [] from rfl] at h
  exact ⟨h.1, h.2.2⟩

/-- C8: WRITING-mode finalization does not abort when the deflate codec
fails: the header's `Compression` falls back to 0, the payload is the raw
uncompressed buffer, and `CompressedSize` is the uncompressed length; when
deflate succeeds, `Compression` stays 1 and `CompressedSize` is the
deflated length. -/
theorem C8_deflate_fallback (st : OrcaState)
    (deflate : List Nat → Option (List Nat)) (sha1F : List Nat → List Nat)
    (hcomp : st.header.compression = COMPRESSION_GZIP) :
    (deflate st.buffer.data = none →
      (orcaFinalize deflate sha1F st).1.compression = COMPRESSION_NONE ∧
      (orcaFinalize deflate sha1F st).1.compressedSize = st.buffer.data.length ∧
      (orcaFinalize deflate sha1F st).2 =
        encodeHeader (orcaFinalize deflate sha1F st).1 ++
          (st.chunks.map encodeEntry).flatten ++ st.buffer.data) ∧
    (∀ cb, deflate st.buffer.data = some cb →
      (orcaFinalize deflate sha1F st).1.compression = COMPRESSION_GZIP ∧
      (orcaFinalize deflate sha1F st).1.compressedSize = cb.length ∧
      (orcaFinalize deflate sha1F st).2 =
        encodeHeader (orcaFinalize deflate sha1F st).1 ++
          (st.chunks.map encodeEntry).flatten ++ cb) := by
  constructor
  · intro hnone
    simp only [orcaFinalize, hcomp, if_pos rfl, hnone]
    exact ⟨rfl, rfl, rfl⟩
  · intro cb hsome
    simp only [orcaFinalize, hcomp, if_pos rfl, hsome]
    exact ⟨rfl, rfl, rfl⟩

/-- C8 witness: finalizing a writer whose deflate fails emits the raw
buffer with `Compression = 0`; with a (trivial) succeeding deflate the
header keeps `Compression = 1`. -/
theorem C8_witness :
    ((orcaFinalize (fun _ => none) (fun _ => List.replicate 20 0)
        ⟨⟨0, 0, 0, 0, 0, 1, 0, []⟩, [], ⟨[5, 6], 2⟩⟩).1.compression = 0 ∧
      (orcaFinalize (fun _ => none) (fun _ => List.replicate 20 0)
        ⟨⟨0, 0, 0, 0, 0, 1, 0, []⟩, [], ⟨[5, 6], 2⟩⟩).1.compressedSize = 2) ∧
    ((orcaFinalize some (fun _ => List.replicate 20 0)
        ⟨⟨0, 0, 0, 0, 0, 1, 0, []⟩, [], ⟨[5, 6], 2⟩⟩).1.compression = 1 ∧
      (orcaFinalize some (fun _ => List.replicate 20 0)
        ⟨⟨0, 0, 0, 0, 0, 1, 0, []⟩, [], ⟨[5, 6], 2⟩⟩).1.compressedSize = 2) := by
  constructor
  · have h := (C8_deflate_fallback ⟨⟨0, 0, 0, 0, 0, 1, 0, []⟩, [], ⟨[5, 6], 2⟩⟩
      (fun _ => none) (fun _ => List.replicate 20 0) rfl).1 rfl
    exact ⟨h.1, h.2.1⟩
  · have h := (C8_deflate_fallback ⟨⟨0, 0, 0, 0, 0, 1, 0, []⟩, [], ⟨[5, 6], 2⟩⟩
      some (fun _ => List.replicate 20 0) rfl).2 [5, 6] rfl
    exact ⟨h.1, h.2.1⟩

/-- C9: every codec built from the chunk-stream primitives — in either mode
— returns with the array stack exactly as it found it: each
`ReadWriteVector` / `ReadWriteArray` pushes one frame in `BeginArray` and
pops that same frame in `EndArray`, even with nested arrays; a codec
started with an empty stack returns with an empty stack. -/
theorem C9_stack_balance :
    (∀ (v : Value) (st st' : ChunkState),
      runWrite v st = .ok st' → st'.arrayStack = st.arrayStack) ∧
    (∀ (sh : Shape) (st : ChunkState) (v : Value) (st' : ChunkState),
      runRead sh st = .ok (v, st') → st'.arrayStack = st.arrayStack) :=
  ⟨runWrite_stack, runRead_stack⟩

/-- C9 witness: a nested vector-of-vectors write and its read-back both end
with the empty array stack they started with. -/
theorem C9_witness :
    (⟨⟨[1, 0, 0, 0, 8, 0, 0, 0, 0, 0, 0, 0, 0, 0, 0, 0], 16⟩, []⟩ :
      ChunkState).arrayStack = ([] : List ArrayState) ∧
    (⟨⟨[1, 0, 0, 0, 8, 0, 0, 0, 0, 0, 0, 0, 0, 0, 0, 0], 16⟩, []⟩ :
      ChunkState).arrayStack = ([] : List ArrayState) := by
  constructor
  · exact C9_stack_balance.1 (.vec (.cons (.vec .nil) .nil)) ⟨⟨[], 0⟩, []⟩
      ⟨⟨[1, 0, 0, 0, 8, 0, 0, 0, 0, 0, 0, 0, 0, 0, 0, 0], 16⟩, []⟩ rfl
  · exact C9_stack_balance.2 (.vec (.vec (.scalar 1)))
      ⟨⟨[1, 0, 0, 0, 8, 0, 0, 0, 0, 0, 0, 0, 0, 0, 0, 0], 0⟩, []⟩
      (.vec (.cons (.vec .nil) .nil))
      ⟨⟨[1, 0, 0, 0, 8, 0, 0, 0, 0, 0, 0, 0, 0, 0, 0, 0], 16⟩, []⟩ rfl

/-- C10: the READING-mode constructor performs no validation: its only
possible failures are `Truncated` and `InflateError` (never `BadMagic`,
`VersionTooNew` or `IntegrityError`), and for every value of the `Magic`,
`MinVersion` and `Sha1` fields — along with the rest of a well-formed
header — construction succeeds and stores the fields verbatim, never
comparing them against anything. -/
theorem C10_no_validation :
    (∀ (inflate : List Nat → Option (List Nat)) (input : List Nat) (e : OrcaErr),
      orcaConstructRead inflate input = .error e →
        e ≠ .BadMagic ∧ e ≠ .VersionTooNew ∧ e ≠ .IntegrityError) ∧
    (∀ (h : Header) (payload : List Nat) (inflate : List Nat → Option (List Nat)),
      headerWf h = true → h.numChunks = 0 → h.compression = COMPRESSION_NONE →
      h.compressedSize = payload.length →
      orcaConstructRead inflate (encodeHeader h ++ payload) =
        .ok ⟨h, [], ⟨payload, payload.length⟩⟩) := by
  constructor
  · intro inflate input e h
    rcases orcaConstructRead_errors inflate input e h with h1 | h1 <;>
      · rw [h1]
        exact ⟨by simp, by simp, by simp⟩
  · intro h payload inflate hwf hnc hcomp hcs
    have hph := parseHeader_encode h payload hwf
    have hpe : parseEntries h.numChunks payload = some ([], payload) := by
      rw [hnc]; rfl
    have hrb : readBlocks h.compressedSize payload = .ok (payload, []) := by
      rw [hcs]; exact readBlocks_all payload
    have hcne : ¬h.compression = COMPRESSION_GZIP := by
      rw [hcomp]; simp [COMPRESSION_NONE, COMPRESSION_GZIP]
    simp only [orcaConstructRead, hph, hpe, hrb, bind, Except.bind,
      if_neg hcne, pure, Except.pure]

/-- C10 witness: a header with arbitrary-looking `Magic`, `MinVersion` and
`Sha1` values parses into a constructed stream that stores them verbatim;
no `BadMagic` / `VersionTooNew` / `IntegrityError` arises. -/
theorem C10_witness :
    orcaConstructRead some
        (encodeHeader ⟨57005, 3, 99, 0, 0, 0, 0, List.replicate 20 7⟩ ++ []) =
      .ok ⟨⟨57005, 3, 99, 0, 0, 0, 0, List.replicate 20 7⟩, [], ⟨[], 0⟩⟩ :=
  C10_no_validation.2 ⟨57005, 3, 99, 0, 0, 0, 0, List.replicate 20 7⟩ [] some
    (by decide) rfl rfl rfl

/-- C1 (amended): full-container codec round trip.  For every codec built
from the chunk-stream primitives and every well-formed value (`wfValue`: in
particular every string NUL-free, array counts and strides below `2 ^ 32`),
writing a container holding one chunk with `ReadWriteChunk` in WRITING
mode, finalizing it, constructing a READING-mode stream over the produced
bytes (with the external compression codecs mutually inverse on the
payload) and reading back with `ReadWriteChunk` reproduces the value
bit-exactly. -/
theorem C1_roundtrip (sh : Shape) (v : Value) (chunkId : Nat)
    (deflate inflate : List Nat → Option (List Nat))
    (sha1F : List Nat → List Nat) (cb : List Nat)
    (hwf : wfValue sh v = true) (hid : chunkId < 2 ^ 32)
    (hlen : (encode v).length < 2 ^ 64) (hcb : cb.length < 2 ^ 64)
    (hdef : deflate (encode v) = some cb) (hinf : inflate cb = some (encode v))
    (hsha : (sha1F (encode v)).length = 20) :
    ∃ (w r r' : OrcaState),
      readWriteChunkW chunkId v orcaOpenWrite = .ok (true, w) ∧
      orcaConstructRead inflate (orcaFinalize deflate sha1F w).2 = .ok r ∧
      readWriteChunkR chunkId sh r = .ok (true, some v, r') := by
  have hw := runWrite_ok v [] []
  rw [List.length_nil] at hw
  simp only [List.nil_append, Nat.zero_add] at hw
  have hwrite : readWriteChunkW chunkId v orcaOpenWrite =
      .ok (true, ⟨orcaOpenWrite.header, [⟨chunkId, 0, (encode v).length⟩],
        ⟨encode v, (encode v).length⟩⟩) := by
    simp only [readWriteChunkW, orcaOpenWrite, bind, Except.bind, hw, pure,
      Except.pure, Nat.sub_zero, List.nil_append]
  set w : OrcaState := ⟨orcaOpenWrite.header, [⟨chunkId, 0, (encode v).length⟩],
    ⟨encode v, (encode v).length⟩⟩ with hwdef
  have hwfh : headerWf
      { w.header with
          numChunks := w.chunks.length
          uncompressedSize := w.buffer.data.length
          compressedSize := cb.length
          sha1 := sha1F w.buffer.data } = true := by
    simp only [hwdef, orcaOpenWrite, headerWf, COMPRESSION_GZIP]
    simp [hsha]
    omega
  have hents : w.chunks.all entryWf = true := by
    simp only [hwdef]
    simp [entryWf]
    omega
  have htrans := construct_finalize_gzip deflate sha1F inflate w cb rfl hdef hinf
    hwfh hents
  have hr := runRead_ok sh v hwf [] [] []
  simp only [List.nil_append, List.append_nil, List.length_nil, Nat.zero_add] at hr
  have hread : readWriteChunkR chunkId sh
      ⟨{ w.header with
          numChunks := w.chunks.length
          uncompressedSize := w.buffer.data.length
          compressedSize := cb.length
          sha1 := sha1F w.buffer.data }, w.chunks,
        ⟨w.buffer.data, w.buffer.data.length⟩⟩ =
      .ok (true, some v,
        ⟨{ w.header with
            numChunks := w.chunks.length
            uncompressedSize := w.buffer.data.length
            compressedSize := cb.length
            sha1 := sha1F w.buffer.data }, w.chunks,
          ⟨encode v, (encode v).length⟩⟩) := by
    have hfind : w.chunks.find? (fun e => e.entryId == chunkId) =
        some ⟨chunkId, 0, (encode v).length⟩ := by
      simp only [hwdef]
      simp [List.find?]
    simp only [readWriteChunkR, seekChunk, hfind, MemoryStream.setPosition,
      bind, Except.bind]
    simp only [hwdef, hr, pure, Except.pure]
  exact ⟨w, _, _, hwrite, htrans, hread⟩

/-- C1 witness: the 4-byte scalar `EF BE AD DE` round-trips through a full
container write / finalize / construct / read cycle with identity
compression codecs. -/
theorem C1_roundtrip_witness :
    ∃ (w r r' : OrcaState),
      readWriteChunkW 4096 (.scalar [239, 190, 173, 222]) orcaOpenWrite =
        .ok (true, w) ∧
      orcaConstructRead some
        (orcaFinalize some (fun _ => List.replicate 20 0) w).2 = .ok r ∧
      readWriteChunkR 4096 (.scalar 4) r =
        .ok (true, some (.scalar [239, 190, 173, 222]), r') :=
  C1_roundtrip (.scalar 4) (.scalar [239, 190, 173, 222]) 4096 some some
    (fun _ => List.replicate 20 0) (encode (.scalar [239, 190, 173, 222]))
    (by decide) (by decide) (by decide) (by decide) rfl rfl (by decide)

/-- Writer state after emitting the chunk of the C1 counterexample: the
string `"A\x00B"` was truncated at its embedded NUL, leaving the two bytes
`65 00` in the buffer. -/
def c1cexWriter : OrcaState :=
  ⟨⟨0, 0, 0, 0, 0, 1, 0, List.replicate 20 0⟩, [⟨7, 0, 2⟩], ⟨[65, 0], 2⟩⟩

/-- Reader state constructed from the C1 counterexample's container. -/
def c1cexReader : OrcaState :=
  ⟨⟨0, 0, 0, 1, 2, 1, 2, List.replicate 20 0⟩, [⟨7, 0, 2⟩], ⟨[65, 0], 2⟩⟩

/-- C1 counterexample to the claim as stated: the string value
`[65, 0, 66]` (an embedded NUL) is passed to the codec, the full
write / finalize / construct / read pipeline runs (with identity
compression codecs), and the value read back is `[65]` — not bit-exactly
the value that was written. -/
theorem C1_counterexample :
    readWriteChunkW 7 (.str [65, 0, 66]) orcaOpenWrite = .ok (true, c1cexWriter) ∧
    orcaConstructRead some
      (orcaFinalize some (fun _ => List.replicate 20 0) c1cexWriter).2 =
      .ok c1cexReader ∧
    readWriteChunkR 7 .str c1cexReader =
      .ok (true, some (.str [65]),
        ⟨c1cexReader.header, c1cexReader.chunks, ⟨[65, 0], 2⟩⟩) ∧
    Value.str [65] ≠ Value.str [65, 0, 66] := by
  refine ⟨rfl, ?_, rfl, by decide⟩
  have h := construct_finalize_gzip some (fun _ => List.replicate 20 0) some
    c1cexWriter [65, 0] rfl rfl rfl (by decide) (by decide)
  exact h

end OrcaSpec
